import Mathlib

/-!
Verification of the SIRC switch-level simulator core.

Shallow embedding of the SIRC sources:
* `src/sirc/core/logic_value.py` — four-state logic values, two- and
  multi-driver resolution (`resolve`, `resolve_all`, `RESOLVE_TABLE`);
* `src/sirc/core/node.py` — per-node bidirectional connection sets;
* `src/sirc/core/transistor.py` — NMOS/PMOS conduction rules;
* `src/sirc/simulator/device_sim.py` — the wire list / wire-index store
  (`connect` / `disconnect`);
* `src/sirc/simulator/device.py` — the fixed-point simulator
  (`build_topology`, `tick` and its three phases).

Python nodes are identified by object identity; the embedding represents
them by natural-number ids (the arena view of §9 of the design notes).
Python `set` iteration order is unspecified; the embedding fixes a
deterministic order.  Every property proved below is insensitive to that
order.
-/

namespace SIRC

/-- Four-state logic value, from `logic_value.py` (`ZERO=0b001`, `ONE=0b010`,
`X=0b100`, `Z=0b000`). -/
inductive LogicValue where
  | ZERO
  | ONE
  | X
  | Z
deriving DecidableEq, Repr, Fintype

namespace LogicValue

/-- The `IntEnum` encoding of each `LogicValue` (its integer value in
`logic_value.py`). -/
def encode : LogicValue → Nat
  | ZERO => 0b001
  | ONE => 0b010
  | X => 0b100
  | Z => 0b000

/-- `LogicValue.resolve` from `logic_value.py` lines 59–89:
`if self is other or other is z_value: return self`;
`if self is z_value: return other`; `return X`. -/
def resolve (a b : LogicValue) : LogicValue :=
  if a = b ∨ b = Z then a
  else if a = Z then b
  else X

end LogicValue

/-- `RESOLVE_TABLE` from `logic_value.py` line 158:
`(Z, ZERO, ONE, X, X, X, X, X)`. -/
def RESOLVE_TABLE : List LogicValue :=
  [.Z, .ZERO, .ONE, .X, .X, .X, .X, .X]

namespace LogicValue

/-- `LogicValue.resolve_all` from `logic_value.py` lines 95–112: OR the
encodings of the truthy values into a 3-bit mask and index `RESOLVE_TABLE`.
(`if value:` on an `IntEnum` tests the integer value against zero.)
The mask is always `< 8`, so the out-of-range default is never consulted. -/
def resolve_all (values : List LogicValue) : LogicValue :=
  RESOLVE_TABLE.getD
    (values.foldl (fun mask v => if v.encode ≠ 0 then mask ||| v.encode else mask) 0) .X

end LogicValue

-- ---------------------------------------------------------------------------
-- Node connection sets (`node.py`)
-- ---------------------------------------------------------------------------

/-- A snapshot of every node's `_connections` set (`node.py`): `c a b = true`
means node `b` is a member of node `a`'s connection set. -/
def ConnRel := Nat → Nat → Bool

/-- Freshly created nodes have empty connection sets (`Node.__init__`). -/
def ConnRel.empty : ConnRel := fun _ _ => false

/-- `Node.connect` from `node.py` lines 78–89: no-op on `self is other`,
otherwise add each node to the other's connection set. -/
def ConnRel.nodeConnect (c : ConnRel) (a b : Nat) : ConnRel :=
  if a = b then c
  else fun x y => if (x = a ∧ y = b) ∨ (x = b ∧ y = a) then true else c x y

/-- `Node.disconnect` from `node.py` lines 91–102: no-op on `self is other`,
otherwise discard each node from the other's connection set. -/
def ConnRel.nodeDisconnect (c : ConnRel) (a b : Nat) : ConnRel :=
  if a = b then c
  else fun x y => if (x = a ∧ y = b) ∨ (x = b ∧ y = a) then false else c x y

/-- One public connectivity call on the node graph. -/
inductive NodeOp where
  | connect (a b : Nat)
  | disconnect (a b : Nat)

/-- Apply a sequence of `Node.connect` / `Node.disconnect` calls in order. -/
def ConnRel.applyOps (c : ConnRel) : List NodeOp → ConnRel
  | [] => c
  | .connect a b :: ops => (c.nodeConnect a b).applyOps ops
  | .disconnect a b :: ops => (c.nodeDisconnect a b).applyOps ops

-- ---------------------------------------------------------------------------
-- Wire store (`device_sim.py` `connect` / `disconnect`)
-- ---------------------------------------------------------------------------

/-- The wire store of `DeviceSimulatorState`: the `wires` list of canonical
`(min, max)` id pairs, and the wire-index map `wires_cache` mapping a pair to
its position in `wires`.

Modelled from the spec: the `wires_cache` slot itself (the `wire_index` map
of §4.2, "a map from the canonical pair to its position in `wires[]`") —
`device_dep.DeviceSimulatorState.__slots__` in this snapshot omits it while
`device_sim.connect` / `disconnect` read and write it.  The map is embedded
as an insertion-ordered association list, matching a Python `dict`. -/
structure WireState where
  wires : List (Nat × Nat)
  wires_cache : List ((Nat × Nat) × Nat)
deriving DecidableEq, Repr

/-- The empty wire store (`DeviceSimulatorState.__init__`). -/
def WireState.empty : WireState := ⟨[], []⟩

/-- Canonicalisation done by `connect`/`disconnect`: `if a > b: a, b = b, a`. -/
def canonEdge (a b : Nat) : Nat × Nat :=
  if a > b then (b, a) else (a, b)

/-- `dict` lookup on the association-list model of `wires_cache`. -/
def cacheLookup (c : List ((Nat × Nat) × Nat)) (e : Nat × Nat) : Option Nat :=
  (c.find? (fun p => p.1 = e)).map (·.2)

/-- `dict` assignment `wires_cache[k] = v`: overwrite in place if the key is
present, else append (Python insertion order). -/
def cacheSet (c : List ((Nat × Nat) × Nat)) (k : Nat × Nat) (v : Nat) :
    List ((Nat × Nat) × Nat) :=
  if c.any (fun p => p.1 = k) then
    c.map (fun p => if p.1 = k then (k, v) else p)
  else c ++ [(k, v)]

/-- `dict.pop(k, None)`: drop the key's entry, if any. -/
def cacheDrop (c : List ((Nat × Nat) × Nat)) (k : Nat × Nat) :
    List ((Nat × Nat) × Nat) :=
  c.filter (fun p => ¬p.1 = k)

/-- `DeviceSimulator.connect` from `device_sim.py` lines 115–134. -/
def WireState.connect (st : WireState) (a b : Nat) : WireState :=
  if a = b then st
  else
    let edge := canonEdge a b
    if (cacheLookup st.wires_cache edge).isSome then st
    else
      { wires := st.wires ++ [edge],
        wires_cache := st.wires_cache ++ [(edge, st.wires.length)] }

/-- `DeviceSimulator.disconnect` from `device_sim.py` lines 136–157.  Returns
`none` exactly where the Python would raise (`wires.pop()` on an empty list,
possible only when `wires_cache` holds an entry while `wires` is empty,
a state unreachable through the public interface). -/
def WireState.disconnect (st : WireState) (a b : Nat) : Option WireState :=
  if a = b then some st
  else
    let edge := canonEdge a b
    match cacheLookup st.wires_cache edge with
    | none => some st
    | some index =>
      let cache1 := cacheDrop st.wires_cache edge
      match st.wires.getLast? with
      | none => none
      | some last_edge =>
        let ws := st.wires.dropLast
        if index < ws.length then
          some { wires := ws.set index last_edge,
                 wires_cache := cacheSet cache1 last_edge index }
        else
          some { wires := ws, wires_cache := cache1 }

-- ---------------------------------------------------------------------------
-- Lemmas on the logic algebra
-- ---------------------------------------------------------------------------

namespace LogicValue

/-- The fold body of `resolve_all`, named for reasoning. -/
def maskStep (mask : Nat) (v : LogicValue) : Nat :=
  if v.encode ≠ 0 then mask ||| v.encode else mask

theorem resolve_all_eq (vs : List LogicValue) :
    resolve_all vs = RESOLVE_TABLE.getD (vs.foldl maskStep 0) .X := rfl

theorem maskStep_eq_or (m : Nat) (v : LogicValue) : maskStep m v = m ||| v.encode := by
  cases v <;> simp [maskStep, encode]

theorem maskStep_lt (m : Nat) (hm : m < 8) (v : LogicValue) : maskStep m v < 8 := by
  have h8 : ∀ (m8 : Fin 8) (v : LogicValue), maskStep m8.val v < 8 := by decide
  exact h8 ⟨m, hm⟩ v

theorem foldl_maskStep_lt (vs : List LogicValue) :
    ∀ m : Nat, m < 8 → vs.foldl maskStep m < 8 := by
  induction vs with
  | nil => intro m hm; simpa using hm
  | cons v vs ih =>
    intro m hm
    simpa [List.foldl_cons] using ih (maskStep m v) (maskStep_lt m hm v)

theorem table_maskStep (m : Nat) (hm : m < 8) (v : LogicValue) :
    RESOLVE_TABLE.getD (maskStep m v) .X = (RESOLVE_TABLE.getD m .X).resolve v := by
  have h8 : ∀ (m8 : Fin 8) (v : LogicValue),
      RESOLVE_TABLE.getD (maskStep m8.val v) .X
        = (RESOLVE_TABLE.getD m8.val .X).resolve v := by decide
  exact h8 ⟨m, hm⟩ v

theorem table_foldl_maskStep (vs : List LogicValue) :
    ∀ m : Nat, m < 8 →
      RESOLVE_TABLE.getD (vs.foldl maskStep m) .X
        = vs.foldl resolve (RESOLVE_TABLE.getD m .X) := by
  induction vs with
  | nil => intro m _; rfl
  | cons v vs ih =>
    intro m hm
    rw [List.foldl_cons, List.foldl_cons, ih (maskStep m v) (maskStep_lt m hm v),
      table_maskStep m hm v]

/-- `resolve_all` is the left fold of `resolve` over `Z` (claim C4, part 1). -/
theorem resolve_all_eq_foldl (vs : List LogicValue) :
    resolve_all vs = vs.foldl resolve .Z := by
  rw [resolve_all_eq, table_foldl_maskStep vs 0 (by norm_num)]
  rfl

theorem foldl_maskStep_perm {vs ws : List LogicValue} (h : vs.Perm ws) :
    ∀ m : Nat, vs.foldl maskStep m = ws.foldl maskStep m := by
  induction h with
  | nil => intro m; rfl
  | cons x _ ih => intro m; simp only [List.foldl_cons]; exact ih (maskStep m x)
  | swap x y l =>
    intro m
    simp only [List.foldl_cons]
    have : maskStep (maskStep m y) x = maskStep (maskStep m x) y := by
      simp only [maskStep_eq_or, Nat.or_assoc]
      rw [Nat.or_comm y.encode x.encode]
    rw [this]
  | trans _ _ ih1 ih2 => intro m; rw [ih1 m, ih2 m]

theorem encode_testBit_two (v : LogicValue) : v.encode.testBit 2 = decide (v = X) := by
  cases v <;> rfl

theorem encode_testBit_one (v : LogicValue) : v.encode.testBit 1 = decide (v = ONE) := by
  cases v <;> rfl

theorem encode_testBit_zero (v : LogicValue) : v.encode.testBit 0 = decide (v = ZERO) := by
  cases v <;> rfl

theorem foldl_maskStep_testBit (vs : List LogicValue) (i : Nat) (w : LogicValue)
    (hw : ∀ v : LogicValue, v.encode.testBit i = decide (v = w)) :
    ∀ m : Nat, ((vs.foldl maskStep m).testBit i = true ↔ m.testBit i = true ∨ w ∈ vs) := by
  induction vs with
  | nil => intro m; simp
  | cons v vs ih =>
    intro m
    rw [List.foldl_cons, ih (maskStep m v)]
    rw [maskStep_eq_or, Nat.testBit_or, hw v]
    constructor
    · rintro (h | h)
      · rcases Bool.or_eq_true_iff.mp h with h | h
        · exact Or.inl h
        · exact Or.inr (by simp at h; simp [h])
      · exact Or.inr (List.mem_cons_of_mem _ h)
    · rintro (h | h)
      · exact Or.inl (by simp [h])
      · rcases List.mem_cons.mp h with h | h
        · exact Or.inl (by simp [h])
        · exact Or.inr h

theorem mask_testBit_x (vs : List LogicValue) :
    ((vs.foldl maskStep 0).testBit 2 = true ↔ X ∈ vs) := by
  rw [foldl_maskStep_testBit vs 2 X encode_testBit_two 0]
  simp

theorem mask_testBit_one (vs : List LogicValue) :
    ((vs.foldl maskStep 0).testBit 1 = true ↔ ONE ∈ vs) := by
  rw [foldl_maskStep_testBit vs 1 ONE encode_testBit_one 0]
  simp

theorem mask_testBit_zero (vs : List LogicValue) :
    ((vs.foldl maskStep 0).testBit 0 = true ↔ ZERO ∈ vs) := by
  rw [foldl_maskStep_testBit vs 0 ZERO encode_testBit_zero 0]
  simp

/-- Table lookups determined by the three mask bits (bit 0 = ZERO present,
bit 1 = ONE present, bit 2 = X present). -/
theorem table_of_bits : ∀ m : Fin 8,
    (m.val.testBit 2 = true → RESOLVE_TABLE.getD m.val .X = .X) ∧
    (m.val.testBit 0 = true → m.val.testBit 1 = true → RESOLVE_TABLE.getD m.val .X = .X) ∧
    (m.val.testBit 0 = true → m.val.testBit 1 = false → m.val.testBit 2 = false →
      RESOLVE_TABLE.getD m.val .X = .ZERO) ∧
    (m.val.testBit 0 = false → m.val.testBit 1 = true → m.val.testBit 2 = false →
      RESOLVE_TABLE.getD m.val .X = .ONE) ∧
    (m.val.testBit 0 = false → m.val.testBit 1 = false → m.val.testBit 2 = false →
      RESOLVE_TABLE.getD m.val .X = .Z) := by
  decide

end LogicValue

section LogicClaims

open LogicValue

/-- C3: `resolve` realises the two-driver resolution table: it is idempotent
(`resolve(a,a) = a`), has `Z` as identity on either side, sends every pair of
distinct non-Z values to `X`, and is commutative. -/
theorem claim_C3 :
    (∀ a : LogicValue, a.resolve a = a) ∧
    (∀ a : LogicValue, a.resolve .Z = a) ∧
    (∀ b : LogicValue, LogicValue.Z.resolve b = b) ∧
    (LogicValue.ZERO.resolve .ONE = .X ∧ LogicValue.ONE.resolve .ZERO = .X ∧
      LogicValue.ZERO.resolve .X = .X ∧ LogicValue.X.resolve .ZERO = .X ∧
      LogicValue.ONE.resolve .X = .X ∧ LogicValue.X.resolve .ONE = .X) ∧
    (∀ a b : LogicValue, a.resolve b = b.resolve a) := by
  refine ⟨by decide, by decide, by decide, by decide, by decide⟩

/-- C4: the mask-OR/table implementation of `resolve_all` equals the left fold
of `resolve` starting from `Z`; consequently it is invariant under permutation,
returns `X` whenever the input contains `X` or both `ZERO` and `ONE`, and
otherwise returns the unique non-Z element if one exists, else `Z`. -/
theorem claim_C4 :
    (∀ vs : List LogicValue, resolve_all vs = vs.foldl resolve .Z) ∧
    (∀ vs ws : List LogicValue, vs.Perm ws → resolve_all vs = resolve_all ws) ∧
    (∀ vs : List LogicValue, .X ∈ vs → resolve_all vs = .X) ∧
    (∀ vs : List LogicValue, .ZERO ∈ vs → .ONE ∈ vs → resolve_all vs = .X) ∧
    (∀ vs : List LogicValue, .X ∉ vs → ¬(.ZERO ∈ vs ∧ .ONE ∈ vs) →
      (∀ v ∈ vs, v ≠ .Z → resolve_all vs = v) ∧
      ((∀ v ∈ vs, v = .Z) → resolve_all vs = .Z)) := by
  refine ⟨resolve_all_eq_foldl, ?_, ?_, ?_, ?_⟩
  · intro vs ws h
    rw [resolve_all_eq, resolve_all_eq, foldl_maskStep_perm h 0]
  · intro vs h
    have hm : vs.foldl maskStep 0 < 8 := foldl_maskStep_lt vs 0 (by norm_num)
    rw [resolve_all_eq]
    exact (table_of_bits ⟨_, hm⟩).1 ((mask_testBit_x vs).mpr h)
  · intro vs h0 h1
    have hm : vs.foldl maskStep 0 < 8 := foldl_maskStep_lt vs 0 (by norm_num)
    rw [resolve_all_eq]
    exact (table_of_bits ⟨_, hm⟩).2.1 ((mask_testBit_zero vs).mpr h0)
      ((mask_testBit_one vs).mpr h1)
  · intro vs hx hzo
    have hm : vs.foldl maskStep 0 < 8 := foldl_maskStep_lt vs 0 (by norm_num)
    have hb2 : (vs.foldl maskStep 0).testBit 2 = false := by
      rw [← Bool.not_eq_true, Ne.eq_def ((vs.foldl maskStep 0).testBit 2) true |>.symm] at *
      exact fun hc => hx ((mask_testBit_x vs).mp hc)
    constructor
    · intro v hv hvz
      cases v with
      | ZERO =>
        have hb0 : (vs.foldl maskStep 0).testBit 0 = true := (mask_testBit_zero vs).mpr hv
        have hb1 : (vs.foldl maskStep 0).testBit 1 = false := by
          rw [← Bool.not_eq_true]
          exact fun hc => hzo ⟨hv, (mask_testBit_one vs).mp hc⟩
        rw [resolve_all_eq]
        exact (table_of_bits ⟨_, hm⟩).2.2.1 hb0 hb1 hb2
      | ONE =>
        have hb1 : (vs.foldl maskStep 0).testBit 1 = true := (mask_testBit_one vs).mpr hv
        have hb0 : (vs.foldl maskStep 0).testBit 0 = false := by
          rw [← Bool.not_eq_true]
          exact fun hc => hzo ⟨(mask_testBit_zero vs).mp hc, hv⟩
        rw [resolve_all_eq]
        exact (table_of_bits ⟨_, hm⟩).2.2.2.1 hb0 hb1 hb2
      | X => exact absurd hv hx
      | Z => exact absurd rfl hvz
    · intro hall
      have hb0 : (vs.foldl maskStep 0).testBit 0 = false := by
        rw [← Bool.not_eq_true]
        intro hc
        exact absurd (hall _ ((mask_testBit_zero vs).mp hc)) (by decide)
      have hb1 : (vs.foldl maskStep 0).testBit 1 = false := by
        rw [← Bool.not_eq_true]
        intro hc
        exact absurd (hall _ ((mask_testBit_one vs).mp hc)) (by decide)
      rw [resolve_all_eq]
      exact (table_of_bits ⟨_, hm⟩).2.2.2.2 hb0 hb1 hb2

/-- Witness for C4 at concrete inputs. -/
theorem claim_C4_witness :
    resolve_all [.ZERO, .Z] = [LogicValue.ZERO, .Z].foldl resolve .Z ∧
    resolve_all [.ZERO, .ONE] = resolve_all [.ONE, .ZERO] ∧
    resolve_all [.Z, .X, .Z] = .X ∧
    resolve_all [.ZERO, .Z, .ONE] = .X ∧
    resolve_all [.ONE, .Z] = .ONE ∧
    resolve_all [.Z, .Z] = .Z :=
  ⟨claim_C4.1 [.ZERO, .Z],
   claim_C4.2.1 [.ZERO, .ONE] [.ONE, .ZERO] (by decide),
   claim_C4.2.2.1 [.Z, .X, .Z] (by decide),
   claim_C4.2.2.2.1 [.ZERO, .Z, .ONE] (by decide) (by decide),
   (claim_C4.2.2.2.2 [.ONE, .Z] (by decide) (by decide)).1 .ONE (by decide) (by decide),
   (claim_C4.2.2.2.2 [.Z, .Z] (by decide) (by decide)).2 (by decide)⟩

/-- C5: `resolve_all` on the empty collection returns `Z`, and its table
lookup is always within the 8-entry table (it cannot raise). -/
theorem claim_C5 :
    resolve_all [] = .Z ∧
    (∀ vs : List LogicValue, vs.foldl maskStep 0 < RESOLVE_TABLE.length) := by
  constructor
  · rfl
  · intro vs
    simpa [RESOLVE_TABLE] using foldl_maskStep_lt vs 0 (by norm_num)

end LogicClaims

-- ---------------------------------------------------------------------------
-- Lemmas on the node connection sets (`node.py`)
-- ---------------------------------------------------------------------------

theorem nodeConnect_symm {c : ConnRel} (hs : ∀ x y, c x y = c y x) (a b : Nat) :
    ∀ x y, c.nodeConnect a b x y = c.nodeConnect a b y x := by
  intro x y
  by_cases hab : a = b
  · simp only [ConnRel.nodeConnect, if_pos hab]
    exact hs x y
  · simp only [ConnRel.nodeConnect, if_neg hab]
    by_cases h1 : (x = a ∧ y = b) ∨ (x = b ∧ y = a)
    · have h2 : (y = a ∧ x = b) ∨ (y = b ∧ x = a) := by tauto
      simp [h1, h2]
    · have h2 : ¬((y = a ∧ x = b) ∨ (y = b ∧ x = a)) := by tauto
      simp [h1, h2, hs x y]

theorem nodeConnect_irrefl {c : ConnRel} (hi : ∀ x, c x x = false) (a b : Nat) :
    ∀ x, c.nodeConnect a b x x = false := by
  intro x
  by_cases hab : a = b
  · simp only [ConnRel.nodeConnect, if_pos hab]
    exact hi x
  · simp only [ConnRel.nodeConnect, if_neg hab]
    have h1 : ¬((x = a ∧ x = b) ∨ (x = b ∧ x = a)) := by
      rintro (⟨h1, h2⟩ | ⟨h1, h2⟩) <;> exact hab (by rw [← h1, ← h2])
    simp [h1, hi x]

theorem nodeDisconnect_symm {c : ConnRel} (hs : ∀ x y, c x y = c y x) (a b : Nat) :
    ∀ x y, c.nodeDisconnect a b x y = c.nodeDisconnect a b y x := by
  intro x y
  by_cases hab : a = b
  · simp only [ConnRel.nodeDisconnect, if_pos hab]
    exact hs x y
  · simp only [ConnRel.nodeDisconnect, if_neg hab]
    by_cases h1 : (x = a ∧ y = b) ∨ (x = b ∧ y = a)
    · have h2 : (y = a ∧ x = b) ∨ (y = b ∧ x = a) := by tauto
      simp [h1, h2]
    · have h2 : ¬((y = a ∧ x = b) ∨ (y = b ∧ x = a)) := by tauto
      simp [h1, h2, hs x y]

theorem nodeDisconnect_irrefl {c : ConnRel} (hi : ∀ x, c x x = false) (a b : Nat) :
    ∀ x, c.nodeDisconnect a b x x = false := by
  intro x
  by_cases hab : a = b
  · simp only [ConnRel.nodeDisconnect, if_pos hab]
    exact hi x
  · simp only [ConnRel.nodeDisconnect, if_neg hab]
    by_cases h1 : (x = a ∧ x = b) ∨ (x = b ∧ x = a)
    · simp [h1]
    · simp [h1, hi x]

theorem applyOps_symm_irrefl (ops : List NodeOp) :
    ∀ c : ConnRel, (∀ x y, c x y = c y x) → (∀ x, c x x = false) →
      (∀ x y, c.applyOps ops x y = c.applyOps ops y x) ∧
      (∀ x, c.applyOps ops x x = false) := by
  induction ops with
  | nil => exact fun c hs hi => ⟨hs, hi⟩
  | cons op ops ih =>
    intro c hs hi
    cases op with
    | connect a b =>
      exact ih _ (nodeConnect_symm hs a b) (nodeConnect_irrefl hi a b)
    | disconnect a b =>
      exact ih _ (nodeDisconnect_symm hs a b) (nodeDisconnect_irrefl hi a b)

/-- C9: after any sequence of `Node.connect` / `Node.disconnect` calls starting
from freshly constructed nodes, the connection relation is symmetric (`b` is in
`a.get_connections()` iff `a` is in `b.get_connections()`) and irreflexive (no
node is a member of its own connection set). -/
theorem claim_C9 (ops : List NodeOp) :
    (∀ a b : Nat, ConnRel.empty.applyOps ops a b = ConnRel.empty.applyOps ops b a) ∧
    (∀ a : Nat, ConnRel.empty.applyOps ops a a = false) :=
  applyOps_symm_irrefl ops ConnRel.empty (fun _ _ => rfl) (fun _ => rfl)

-- ---------------------------------------------------------------------------
-- Lemmas on the wire store (`device_sim.py`)
-- ---------------------------------------------------------------------------

theorem cacheLookup_append_self {c : List ((Nat × Nat) × Nat)} {e : Nat × Nat} {i : Nat}
    (h : cacheLookup c e = none) : cacheLookup (c ++ [(e, i)]) e = some i := by
  induction c with
  | nil => simp [cacheLookup, List.find?]
  | cons p c ih =>
    by_cases hp : p.1 = e
    · exact absurd h (by simp [cacheLookup, List.find?_cons, hp])
    · have h2 : cacheLookup c e = none := by
        simpa [cacheLookup, List.find?_cons, hp] using h
      simpa [cacheLookup, List.find?_cons, hp] using ih h2

theorem cacheLookup_eq_none_iff {c : List ((Nat × Nat) × Nat)} {e : Nat × Nat} :
    cacheLookup c e = none ↔ ∀ p ∈ c, ¬p.1 = e := by
  unfold cacheLookup
  constructor
  · intro h p hp
    cases hf : List.find? (fun p => decide (p.1 = e)) c with
    | none => exact fun hpe => absurd (by simpa using List.find?_eq_none.mp hf p hp) (by simp [hpe])
    | some q => rw [hf] at h; simp at h
  · intro h
    rw [List.find?_eq_none.mpr]
    · rfl
    · intro p hp
      simpa using h p hp

/-- C8 (amended): `connect(a,a)` leaves the wire store unchanged; a repeated
`connect(a,b)` is a no-op; and `disconnect(a,b)` directly after `connect(a,b)`
restores the prior wire store, provided no wire between `a` and `b` was
recorded before the `connect` (when one already was, the `connect` is a no-op
and the `disconnect` removes the pre-existing wire). -/
theorem claim_C8 :
    (∀ (st : WireState) (a : Nat), st.connect a a = st) ∧
    (∀ (st : WireState) (a b : Nat), (st.connect a b).connect a b = st.connect a b) ∧
    (∀ (st : WireState) (a b : Nat),
      cacheLookup st.wires_cache (canonEdge a b) = none →
      (st.connect a b).disconnect a b = some st) := by
  refine ⟨?_, ?_, ?_⟩
  · intro st a
    simp [WireState.connect]
  · intro st a b
    by_cases hab : a = b
    · simp [WireState.connect, hab]
    · rcases hc : cacheLookup st.wires_cache (canonEdge a b) with _ | i
      · simp only [WireState.connect, if_neg hab, hc, Option.isSome_none,
          Bool.false_eq_true, if_false]
        simp [cacheLookup_append_self hc]
      · simp [WireState.connect, hab, hc]
  · intro st a b h
    by_cases hab : a = b
    · simp [WireState.connect, WireState.disconnect, hab]
    · have hall : ∀ p ∈ st.wires_cache, ¬p.1 = canonEdge a b :=
        cacheLookup_eq_none_iff.mp h
      simp only [WireState.connect, if_neg hab, h, Option.isSome_none,
        Bool.false_eq_true, if_false]
      simp only [WireState.disconnect, if_neg hab, cacheLookup_append_self h]
      rw [List.getLast?_concat]
      simp only [List.dropLast_concat, lt_self_iff_false, if_false]
      have hdrop : cacheDrop (st.wires_cache ++ [(canonEdge a b, st.wires.length)])
          (canonEdge a b) = st.wires_cache := by
        simp only [cacheDrop, List.filter_append]
        rw [List.filter_eq_self.mpr, List.filter_cons]
        · simp
        · intro p hp
          simpa using hall p hp
      rw [hdrop]

/-- Witness for C8 at concrete inputs. -/
theorem claim_C8_witness :
    WireState.empty.connect 0 0 = WireState.empty ∧
    (WireState.empty.connect 0 1).connect 0 1 = WireState.empty.connect 0 1 ∧
    (WireState.empty.connect 0 1).disconnect 0 1 = some WireState.empty :=
  ⟨claim_C8.1 WireState.empty 0,
   claim_C8.2.1 WireState.empty 0 1,
   claim_C8.2.2 WireState.empty 0 1 (by decide)⟩

/-- Counterexample to C8 as stated: if a wire between `a` and `b` already
exists, `connect(a,b)` is a no-op, so the subsequent `disconnect(a,b)` removes
the pre-existing wire instead of restoring the prior wire set. -/
theorem claim_C8_counterexample :
    ((WireState.empty.connect 0 1).connect 0 1).disconnect 0 1 ≠
      some (WireState.empty.connect 0 1) := by
  decide

-- ---------------------------------------------------------------------------
-- Transistors (`transistor.py`)
-- ---------------------------------------------------------------------------

/-- `TransistorKind` from `transistor.py`. -/
inductive TKind where
  | NMOS
  | PMOS
deriving DecidableEq, Repr

/-- A transistor record: kind plus gate/source/drain node ids
(`Transistor.__init__`).  Python transistor objects are compared by identity;
under the structural invariant that every gate node belongs to exactly one
transistor (spec §3 invariant 4, enforced by the factories), records with
distinct gates represent distinct objects. -/
structure TransR where
  kind : TKind
  gate : Nat
  source : Nat
  drain : Nat
deriving DecidableEq, Repr

/-- `NMOS.is_conducting` / `PMOS.is_conducting` from `transistor.py` lines
181–183 and 205–207, reading the gate node's current resolved value. -/
def TransR.isConducting (t : TransR) (rslv : Nat → LogicValue) : Bool :=
  match t.kind with
  | .NMOS => rslv t.gate = .ONE
  | .PMOS => rslv t.gate = .ZERO

/-- C6: an NMOS conducts iff its gate resolves to ONE, a PMOS conducts iff its
gate resolves to ZERO, and a gate at X or Z leaves either kind non-conducting. -/
theorem claim_C6 (rslv : Nat → LogicValue) (t : TransR) :
    (t.kind = .NMOS → (t.isConducting rslv = true ↔ rslv t.gate = .ONE)) ∧
    (t.kind = .PMOS → (t.isConducting rslv = true ↔ rslv t.gate = .ZERO)) ∧
    ((rslv t.gate = .X ∨ rslv t.gate = .Z) → t.isConducting rslv = false) := by
  refine ⟨?_, ?_, ?_⟩
  · intro hk
    simp [TransR.isConducting, hk]
  · intro hk
    simp [TransR.isConducting, hk]
  · intro hg
    cases t with
    | mk kind gate source drain =>
      cases kind <;> rcases hg with hg | hg <;> simp [TransR.isConducting, hg]

/-- Witness for C6 at a concrete input. -/
theorem claim_C6_witness :
    (TransR.mk .NMOS 0 1 2).isConducting (fun _ => .ONE) = true ∧
    (TransR.mk .PMOS 0 1 2).isConducting (fun _ => .X) = false :=
  ⟨((claim_C6 (fun _ => .ONE) (TransR.mk .NMOS 0 1 2)).1 rfl).mpr rfl,
   (claim_C6 (fun _ => .X) (TransR.mk .PMOS 0 1 2)).2.2 (Or.inl rfl)⟩

/-- C10: `DeviceSimulator.disconnect` with no recorded wire between `a` and
`b` — including the `a = b` case — raises nothing and leaves the wire list and
the wire-index map unchanged. -/
theorem claim_C10 :
    (∀ (st : WireState) (a b : Nat),
      cacheLookup st.wires_cache (canonEdge a b) = none →
      st.disconnect a b = some st) ∧
    (∀ (st : WireState) (a : Nat), st.disconnect a a = some st) := by
  constructor
  · intro st a b h
    by_cases hab : a = b
    · simp [WireState.disconnect, hab]
    · simp [WireState.disconnect, hab, h]
  · intro st a
    simp [WireState.disconnect]

/-- Witness for C10 at concrete inputs. -/
theorem claim_C10_witness :
    (WireState.mk [(2, 3)] [((2, 3), 0)]).disconnect 0 1 =
      some (WireState.mk [(2, 3)] [((2, 3), 0)]) ∧
    WireState.empty.disconnect 5 5 = some WireState.empty :=
  ⟨claim_C10.1 (WireState.mk [(2, 3)] [((2, 3), 0)]) 0 1 (by decide),
   claim_C10.2 WireState.empty 5⟩

-- ---------------------------------------------------------------------------
-- The fixed-point simulator (`simulator/device.py`)
-- ---------------------------------------------------------------------------

/-!
Embedding of `DeviceSimulator` from `simulator/device.py`.  Nodes are ids;
the union of all per-node `_connections` sets is one list of canonical
`(min, max)` pairs (`Node.connect`/`Node.disconnect` always update both
endpoints, so the per-node sets form a symmetric relation, i.e. an edge set).
Python `set` iteration orders are unspecified; the embedding fixes:
registered nodes in ascending registration order, components and dirty sets
in insertion order, neighbours in edge-list order.  `NodeComponent` objects
(identity-compared in Python) are represented by their member lists together
with a dirty flag position; this is faithful on states where the components
partition the node set (distinct live components then have distinct member
sets), which holds in every state reachable from `build_topology`.
-/

/-- Canonical unordered pair. -/
def edgeKey (a b : Nat) : Nat × Nat :=
  if a ≤ b then (a, b) else (b, a)

/-- `Node.connect` (`node.py` lines 78–89) viewed on the global edge set:
no-op on `self is other`, otherwise both connection sets gain the other node. -/
def edgeInsert (adj : List (Nat × Nat)) (a b : Nat) : List (Nat × Nat) :=
  if a = b then adj
  else if edgeKey a b ∈ adj then adj
  else adj ++ [edgeKey a b]

/-- `Node.disconnect` (`node.py` lines 91–102) viewed on the global edge set. -/
def edgeErase (adj : List (Nat × Nat)) (a b : Nat) : List (Nat × Nat) :=
  if a = b then adj
  else adj.erase (edgeKey a b)

/-- `node.get_connections()` read off the global edge set. -/
def neighbors (adj : List (Nat × Nat)) (x : Nat) : List Nat :=
  adj.foldr (fun e acc => if e.1 = x then e.2 :: acc else if e.2 = x then e.1 :: acc else acc) []

/-- `set.add` of Python: append unless already present. -/
def listInsert {α : Type} [DecidableEq α] (xs : List α) (x : α) : List α :=
  if x ∈ xs then xs else xs ++ [x]

/-- A store of per-node `LogicValue` attributes (`Node._default_value`,
`Node._resolved_value`).  Every node starts at `Z` (`Node.__init__`), so the
store reads `Z` for nodes never written. -/
abbrev ValStore := List (Nat × LogicValue)

/-- Read a node's value from a store (`Z` if never written). -/
def readVal (st : ValStore) (n : Nat) : LogicValue :=
  ((st.find? (fun p => p.1 = n)).map (fun p => p.2)).getD .Z

/-- Write a node's value into a store (in place if present, else append). -/
def writeVal (st : ValStore) (n : Nat) (v : LogicValue) : ValStore :=
  if st.any (fun p => p.1 = n) then
    st.map (fun p => if p.1 = n then (n, v) else p)
  else st ++ [(n, v)]

/-- The simulator state: the fields of `DeviceSimulator.__init__`
(`device.py` lines 36–47) relevant to evaluation, with `_gates` and
`_find_transistor` derived from the registered transistors (registration
keeps them in sync; spec §3 invariant 4 makes the gate→transistor map
single-valued). -/
structure Sim where
  nodes : List Nat
  dflt : ValStore
  rslv : ValStore
  adj : List (Nat × Nat)
  trans : List TransR
  comps : List (List Nat)
  dirtyComps : List (List Nat)
  dirtyTrans : List TransR
  dirty : Bool
deriving DecidableEq, Repr

/-- `node.default_value`. -/
def Sim.dfltAt (s : Sim) (n : Nat) : LogicValue :=
  readVal s.dflt n

/-- `node.resolved_value`. -/
def Sim.rslvAt (s : Sim) (n : Nat) : LogicValue :=
  readVal s.rslv n

/-- `node in self._gates`. -/
def Sim.isGate (s : Sim) (g : Nat) : Bool :=
  s.trans.any (fun t => t.gate = g)

/-- `self._find_transistor[node]`; total because in every reachable state the
argument is a registered gate (the `KeyError` path is unreachable). -/
def Sim.findTransistor (s : Sim) (g : Nat) : TransR :=
  (s.trans.find? (fun t => t.gate = g)).getD ⟨.NMOS, 0, 0, 0⟩

/-- The component of a component list holding `x`. -/
def findCompL (comps : List (List Nat)) (x : Nat) : List Nat :=
  (comps.find? (fun c => x ∈ c)).getD []

/-- `self._find_node_component[x]`: the component holding `x`; single-valued
on partition states (see module comment). -/
def Sim.findComp (s : Sim) (x : Nat) : List Nat :=
  findCompL s.comps x

/-- A sufficient fuel for one stack DFS: every popped element was pushed, the
start is pushed once and each node's neighbour list is pushed at most once. -/
def dfsFuel (adj : List (Nat × Nat)) : Nat :=
  2 * adj.length + 2

/-- The inner `while stack:` DFS of `_build_node_components` /
`_update_node_components` (`device.py` lines 190–202 and 255–267): pop, skip
if visited, else mark visited, record in the component, push the unvisited
neighbours.  Fuelled; `dfsFuel` is proved sufficient below. -/
def dfsAux (adj : List (Nat × Nat)) : Nat → List Nat → List Nat → List Nat →
    List Nat × List Nat
  | 0, _, visited, comp => (visited, comp)
  | _ + 1, [], visited, comp => (visited, comp)
  | fuel + 1, node :: stack, visited, comp =>
    if node ∈ visited then dfsAux adj fuel stack visited comp
    else
      dfsAux adj fuel
        ((neighbors adj node).filter (fun y => ¬y ∈ node :: visited) ++ stack)
        (node :: visited) (node :: comp)

/-- The `for start in …` loops of `_build_node_components` and of one group of
`_update_node_components`: scan the candidate starts in order, sharing the
visited set, launching a DFS from each yet-unvisited start. -/
def scanStarts (adj : List (Nat × Nat)) : List Nat → List Nat →
    List (List Nat) × List Nat
  | [], visited => ([], visited)
  | x :: xs, visited =>
    if x ∈ visited then scanStarts adj xs visited
    else
      let vc := dfsAux adj (dfsFuel adj) [x] visited []
      let rest := scanStarts adj xs vc.1
      (vc.2 :: rest.1, rest.2)

/-- `DeviceSimulator.build_topology` (`device.py` lines 141–148) followed by
`_build_node_components` (lines 178–205): reset the component bookkeeping,
mark dirty, and rebuild all components from the registered nodes. -/
def Sim.buildTopology (s : Sim) : Sim :=
  let cs := (scanStarts s.adj s.nodes []).1
  { s with comps := cs, dirtyComps := cs, dirtyTrans := [], dirty := true }

/-- The per-node body of the `for node in group.nodes:` loop of
`_resolve_node_components` (`device.py` lines 209–221): schedule the node's
transistor if it is a gate whose resolved value changes, then write the
resolved value. -/
def resolveStep (v : LogicValue) (s1 : Sim) (node : Nat) : Sim :=
  let s2 :=
    if s1.isGate node ∧ ¬v = s1.rslvAt node then
      { s1 with dirtyTrans := listInsert s1.dirtyTrans (s1.findTransistor node) }
    else s1
  { s2 with rslv := writeVal s2.rslv node v }

/-- The per-group body of `_resolve_node_components` (`device.py` lines
209–221): collect the members' default values, resolve them, and process each
member.  (`drivers` is a Python set; `resolve_all` ORs encodings, so
duplicates are irrelevant.) -/
def resolveGroup (s : Sim) (group : List Nat) : Sim :=
  let v := LogicValue.resolve_all (group.map s.dfltAt)
  group.foldl (resolveStep v) s

/-- `_resolve_node_components` (`device.py` lines 207–223). -/
def Sim.resolveNodeComponents (s : Sim) : Sim :=
  let s1 := s.dirtyComps.foldl resolveGroup s
  { s1 with dirtyComps := [] }

/-- The per-transistor body of `_update_transistor_connections` (`device.py`
lines 225–238): connect or disconnect the dirty transistor's channel and mark
the components of both conduction nodes dirty. -/
def transStep (s1 : Sim) (t : TransR) : Sim :=
  let adj1 :=
    if t.isConducting s1.rslvAt then edgeInsert s1.adj t.source t.drain
    else edgeErase s1.adj t.source t.drain
  let s2 := { s1 with adj := adj1 }
  { s2 with
      dirtyComps :=
        listInsert (listInsert s2.dirtyComps (s2.findComp t.source))
          (s2.findComp t.drain) }

/-- `_update_transistor_connections` (`device.py` lines 225–238). -/
def Sim.updateTransistorConnections (s : Sim) : Sim :=
  let s1 := s.dirtyTrans.foldl transStep s
  { s1 with dirtyTrans := [] }

/-- `_update_node_components` (`device.py` lines 240–279): recompute, via a
shared-visited DFS, the components of every node of every dirty component;
drop the dirty components, add the recomputed ones, and mark exactly those
dirty.  If nothing was recomputed the simulator is stable. -/
def Sim.updateNodeComponents (s : Sim) : Sim :=
  let newComps := (scanStarts s.adj (s.dirtyComps.foldl (· ++ ·) []) []).1
  { s with
      comps := s.comps.filter (fun c => ¬c ∈ s.dirtyComps) ++ newComps,
      dirtyComps := newComps,
      dirty := if newComps = [] then false else s.dirty }

/-- One iteration of the `while self._dirty:` loop of `tick` (`device.py`
lines 281–286). -/
def Sim.loopBody (s : Sim) : Sim :=
  s.resolveNodeComponents.updateTransistorConnections.updateNodeComponents

/-- `DeviceSimulator.tick` (`device.py` lines 281–286), fuelled: the Python
loop runs while `_dirty`; `tickF fuel s` performs at most `fuel` iterations,
so the Python call returns exactly when `(tickF fuel s).dirty = false` for
some fuel. -/
def Sim.tickF : Nat → Sim → Sim
  | 0, s => s
  | fuel + 1, s => if s.dirty then Sim.tickF fuel s.loopBody else s

/-- `Input.set_value` (`core/device.py` lines 109–111): set the terminal
node's default value. -/
def Sim.inputSetValue (s : Sim) (n : Nat) (v : LogicValue) : Sim :=
  { s with dflt := writeVal s.dflt n v }

/-- `Probe.sample` (`core/device.py` lines 126–128): read the terminal node's
resolved value. -/
def Sim.probeSample (s : Sim) (n : Nat) : LogicValue :=
  s.rslvAt n

/-- `DeviceSimulator.connect` (`device.py` lines 154–162): delegate to
`Node.connect`. -/
def Sim.connect (s : Sim) (a b : Nat) : Sim :=
  { s with adj := edgeInsert s.adj a b }

-- ---------------------------------------------------------------------------
-- Graph-theoretic view of the edge list
-- ---------------------------------------------------------------------------

/-- Two nodes are adjacent when the edge list joins them in either
orientation (the per-node connection sets are symmetric). -/
def Adj (adj : List (Nat × Nat)) (x y : Nat) : Prop :=
  (x, y) ∈ adj ∨ (y, x) ∈ adj

instance (adj : List (Nat × Nat)) (x y : Nat) : Decidable (Adj adj x y) := by
  unfold Adj
  infer_instance

/-- A node set closed under adjacency. -/
def AdjClosed (adj : List (Nat × Nat)) (vs : List Nat) : Prop :=
  ∀ v ∈ vs, ∀ y, Adj adj v y → y ∈ vs

/-- Graph reachability along the edge list. -/
def ReachAdj (adj : List (Nat × Nat)) (x y : Nat) : Prop :=
  Relation.ReflTransGen (Adj adj) x y

theorem Adj_symm {adj : List (Nat × Nat)} {x y : Nat} (h : Adj adj x y) :
    Adj adj y x :=
  h.elim Or.inr Or.inl

theorem adj_symmetric (adj : List (Nat × Nat)) : Symmetric (Adj adj) :=
  fun _ _ h => Adj_symm h

theorem ReachAdj.refl {adj : List (Nat × Nat)} {x : Nat} : ReachAdj adj x x :=
  Relation.ReflTransGen.refl

theorem ReachAdj.trans {adj : List (Nat × Nat)} {x y z : Nat}
    (h1 : ReachAdj adj x y) (h2 : ReachAdj adj y z) : ReachAdj adj x z :=
  Relation.ReflTransGen.trans h1 h2

theorem ReachAdj_symm {adj : List (Nat × Nat)} {x y : Nat}
    (h : ReachAdj adj x y) : ReachAdj adj y x :=
  (Relation.ReflTransGen.symmetric (adj_symmetric adj)) h

theorem ReachAdj.single {adj : List (Nat × Nat)} {x y : Nat} (h : Adj adj x y) :
    ReachAdj adj x y :=
  Relation.ReflTransGen.single h

/-- Membership in `neighbors` is exactly adjacency. -/
theorem mem_neighbors {adj : List (Nat × Nat)} {x y : Nat} :
    y ∈ neighbors adj x ↔ Adj adj x y := by
  induction adj with
  | nil => simp [neighbors, Adj]
  | cons e adj ih =>
    rcases e with ⟨p, q⟩
    have hstep : neighbors ((p, q) :: adj) x =
        if p = x then q :: neighbors adj x
        else if q = x then p :: neighbors adj x
        else neighbors adj x := rfl
    rw [hstep]
    unfold Adj at ih ⊢
    by_cases h1 : p = x
    · subst h1
      rw [if_pos rfl]
      simp only [List.mem_cons, ih, Prod.mk.injEq]
      constructor
      · rintro (rfl | h | h)
        · exact Or.inl (Or.inl ⟨trivial, rfl⟩)
        · exact Or.inl (Or.inr h)
        · exact Or.inr (Or.inr h)
      · rintro ((⟨-, rfl⟩ | h) | (⟨rfl, hq⟩ | h))
        · exact Or.inl rfl
        · exact Or.inr (Or.inl h)
        · exact Or.inl hq
        · exact Or.inr (Or.inr h)
    · by_cases h2 : q = x
      · subst h2
        rw [if_neg h1, if_pos rfl]
        simp only [List.mem_cons, ih, Prod.mk.injEq]
        constructor
        · rintro (rfl | h | h)
          · exact Or.inr (Or.inl ⟨rfl, trivial⟩)
          · exact Or.inl (Or.inr h)
          · exact Or.inr (Or.inr h)
        · rintro ((⟨hqp, -⟩ | h) | (⟨rfl, -⟩ | h))
          · exact absurd hqp.symm h1
          · exact Or.inr (Or.inl h)
          · exact Or.inl rfl
          · exact Or.inr (Or.inr h)
      · rw [if_neg h1, if_neg h2]
        simp only [List.mem_cons, ih, Prod.mk.injEq]
        constructor
        · rintro (h | h)
          · exact Or.inl (Or.inr h)
          · exact Or.inr (Or.inr h)
        · rintro ((⟨hxp, -⟩ | h) | (⟨-, hxq⟩ | h))
          · exact absurd hxp.symm h1
          · exact Or.inl h
          · exact absurd hxq.symm h2
          · exact Or.inr h

/-- Reachability from a node outside a closed set never enters the set. -/
theorem reach_not_mem_closed {adj : List (Nat × Nat)} {V : List Nat} {x z : Nat}
    (hVc : AdjClosed adj V) (hxV : x ∉ V) (hr : ReachAdj adj x z) : z ∉ V := by
  induction hr with
  | refl => exact hxV
  | @tail b c _ step ih => exact fun hcV => ih (hVc c hcV b (Adj_symm step))

/-- Reachability stays among registered nodes when all edges are registered. -/
theorem reach_scope {adj : List (Nat × Nat)} {nodes : List Nat} {x z : Nat}
    (hsc : ∀ e ∈ adj, e.1 ∈ nodes ∧ e.2 ∈ nodes) (hx : x ∈ nodes)
    (hr : ReachAdj adj x z) : z ∈ nodes := by
  induction hr with
  | refl => exact hx
  | tail _ step ih =>
    rcases step with h | h
    · exact (hsc _ h).2
    · exact (hsc _ h).1

theorem edgeKey_self_mem {adj : List (Nat × Nat)} {a b : Nat}
    (h : edgeKey a b ∈ adj) : Adj adj a b := by
  unfold edgeKey at h
  by_cases hle : a ≤ b
  · exact Or.inl (by simpa [hle] using h)
  · exact Or.inr (by simpa [hle] using h)

/-- Effect of `Node.connect` on adjacency. -/
theorem Adj_edgeInsert {adj : List (Nat × Nat)} {a b x y : Nat} (hab : ¬a = b) :
    Adj (edgeInsert adj a b) x y ↔
      Adj adj x y ∨ (x = a ∧ y = b) ∨ (x = b ∧ y = a) := by
  unfold edgeInsert
  rw [if_neg hab]
  by_cases hmem : edgeKey a b ∈ adj
  · rw [if_pos hmem]
    constructor
    · exact Or.inl
    · rintro (h | (⟨rfl, rfl⟩ | ⟨rfl, rfl⟩))
      · exact h
      · exact edgeKey_self_mem hmem
      · exact Adj_symm (edgeKey_self_mem hmem)
  · rw [if_neg hmem]
    unfold Adj edgeKey
    by_cases hle : a ≤ b
    · simp only [if_pos hle, List.mem_append, List.mem_singleton, Prod.ext_iff]
      constructor
      · rintro ((h | ⟨rfl, rfl⟩) | (h | ⟨rfl, rfl⟩))
        · exact Or.inl (Or.inl h)
        · exact Or.inr (Or.inl ⟨rfl, rfl⟩)
        · exact Or.inl (Or.inr h)
        · exact Or.inr (Or.inr ⟨rfl, rfl⟩)
      · rintro ((h | h) | (⟨rfl, rfl⟩ | ⟨rfl, rfl⟩))
        · exact Or.inl (Or.inl h)
        · exact Or.inr (Or.inl h)
        · exact Or.inl (Or.inr ⟨rfl, rfl⟩)
        · exact Or.inr (Or.inr ⟨rfl, rfl⟩)
    · simp only [if_neg hle, List.mem_append, List.mem_singleton, Prod.ext_iff]
      constructor
      · rintro ((h | ⟨rfl, rfl⟩) | (h | ⟨rfl, rfl⟩))
        · exact Or.inl (Or.inl h)
        · exact Or.inr (Or.inr ⟨rfl, rfl⟩)
        · exact Or.inl (Or.inr h)
        · exact Or.inr (Or.inl ⟨rfl, rfl⟩)
      · rintro ((h | h) | (⟨rfl, rfl⟩ | ⟨rfl, rfl⟩))
        · exact Or.inl (Or.inl h)
        · exact Or.inr (Or.inl h)
        · exact Or.inr (Or.inr ⟨rfl, rfl⟩)
        · exact Or.inl (Or.inr ⟨rfl, rfl⟩)

/-- Effect of `Node.disconnect` on adjacency (on duplicate-free canonical
edge lists). -/
theorem Adj_edgeErase {adj : List (Nat × Nat)} {a b x y : Nat} (hab : ¬a = b)
    (hnd : adj.Nodup) (hcanon : ∀ e ∈ adj, e.1 < e.2) :
    Adj (edgeErase adj a b) x y ↔
      Adj adj x y ∧ ¬((x = a ∧ y = b) ∨ (x = b ∧ y = a)) := by
  unfold edgeErase
  rw [if_neg hab]
  unfold Adj
  rw [hnd.mem_erase_iff, hnd.mem_erase_iff]
  constructor
  · rintro (⟨hne, h⟩ | ⟨hne, h⟩)
    · refine ⟨Or.inl h, ?_⟩
      have hxy : (x, y).1 < (x, y).2 := hcanon _ h
      rintro (⟨rfl, rfl⟩ | ⟨rfl, rfl⟩)
      · exact hne (by unfold edgeKey; rw [if_pos (Nat.le_of_lt hxy)])
      · exact hne (by unfold edgeKey; rw [if_neg (Nat.not_le.mpr hxy)])
    · refine ⟨Or.inr h, ?_⟩
      have hyx : (y, x).1 < (y, x).2 := hcanon _ h
      rintro (⟨rfl, rfl⟩ | ⟨rfl, rfl⟩)
      · exact hne (by unfold edgeKey; rw [if_neg (Nat.not_le.mpr hyx)])
      · exact hne (by unfold edgeKey; rw [if_pos (Nat.le_of_lt hyx)])
  · rintro ⟨h | h, hnm⟩
    · refine Or.inl ⟨?_, h⟩
      intro he
      unfold edgeKey at he
      by_cases hle : a ≤ b
      · rw [if_pos hle] at he
        exact hnm (Or.inl ⟨congrArg Prod.fst he, congrArg Prod.snd he⟩)
      · rw [if_neg hle] at he
        exact hnm (Or.inr ⟨congrArg Prod.fst he, congrArg Prod.snd he⟩)
    · refine Or.inr ⟨?_, h⟩
      intro he
      unfold edgeKey at he
      by_cases hle : a ≤ b
      · rw [if_pos hle] at he
        exact hnm (Or.inr ⟨congrArg Prod.snd he, congrArg Prod.fst he⟩)
      · rw [if_neg hle] at he
        exact hnm (Or.inl ⟨congrArg Prod.snd he, congrArg Prod.fst he⟩)

theorem edgeInsert_nodup {adj : List (Nat × Nat)} {a b : Nat} (hnd : adj.Nodup) :
    (edgeInsert adj a b).Nodup := by
  unfold edgeInsert
  split
  · exact hnd
  · split
    · exact hnd
    · rename_i hmem
      simpa [List.nodup_append] using ⟨hnd, fun h => hmem h⟩

theorem edgeInsert_canon {adj : List (Nat × Nat)} {a b : Nat}
    (hcanon : ∀ e ∈ adj, e.1 < e.2) : ∀ e ∈ edgeInsert adj a b, e.1 < e.2 := by
  unfold edgeInsert
  split
  · exact hcanon
  · split
    · exact hcanon
    · rename_i hab _
      intro e he
      rcases List.mem_append.mp he with h | h
      · exact hcanon e h
      · rw [List.mem_singleton.mp h]
        unfold edgeKey
        by_cases hle : a ≤ b
        · rw [if_pos hle]
          exact Nat.lt_of_le_of_ne hle hab
        · rw [if_neg hle]
          exact Nat.lt_of_not_le hle

theorem edgeErase_nodup {adj : List (Nat × Nat)} {a b : Nat} (hnd : adj.Nodup) :
    (edgeErase adj a b).Nodup := by
  unfold edgeErase
  split
  · exact hnd
  · exact hnd.erase _

theorem edgeErase_canon {adj : List (Nat × Nat)} {a b : Nat}
    (hcanon : ∀ e ∈ adj, e.1 < e.2) : ∀ e ∈ edgeErase adj a b, e.1 < e.2 := by
  unfold edgeErase
  split
  · exact hcanon
  · exact fun e he => hcanon e (List.mem_of_mem_erase he)

theorem edgeInsert_scope {adj : List (Nat × Nat)} {nodes : List Nat} {a b : Nat}
    (hsc : ∀ e ∈ adj, e.1 ∈ nodes ∧ e.2 ∈ nodes) (ha : a ∈ nodes) (hb : b ∈ nodes) :
    ∀ e ∈ edgeInsert adj a b, e.1 ∈ nodes ∧ e.2 ∈ nodes := by
  unfold edgeInsert
  split
  · exact hsc
  · split
    · exact hsc
    · intro e he
      rcases List.mem_append.mp he with h | h
      · exact hsc e h
      · rw [List.mem_singleton.mp h]
        unfold edgeKey
        by_cases hle : a ≤ b
        · rw [if_pos hle]
          exact ⟨ha, hb⟩
        · rw [if_neg hle]
          exact ⟨hb, ha⟩

theorem edgeErase_scope {adj : List (Nat × Nat)} {nodes : List Nat} {a b : Nat}
    (hsc : ∀ e ∈ adj, e.1 ∈ nodes ∧ e.2 ∈ nodes) :
    ∀ e ∈ edgeErase adj a b, e.1 ∈ nodes ∧ e.2 ∈ nodes := by
  unfold edgeErase
  split
  · exact hsc
  · exact fun e he => hsc e (List.mem_of_mem_erase he)

-- ---------------------------------------------------------------------------
-- DFS termination measure and correctness
-- ---------------------------------------------------------------------------

/-- All edge endpoints, with multiplicity. -/
def endpointsList (adj : List (Nat × Nat)) : List Nat :=
  adj.foldr (fun e acc => e.1 :: e.2 :: acc) []

/-- Number of endpoint occurrences outside the visited set — the push budget
of the DFS. -/
def unvisitedCount (adj : List (Nat × Nat)) (vis : List Nat) : Nat :=
  (endpointsList adj).countP (fun z => !decide (z ∈ vis))

theorem ite_of_eq_true {b : Bool} {n m : Nat} (hb : b = true) :
    (if b = true then n else m) = n := by
  rw [hb]
  rfl

theorem ite_of_eq_false {b : Bool} {n m : Nat} (hb : b = false) :
    (if b = true then n else m) = m := by
  rw [hb]
  rfl

theorem endpointsList_length (adj : List (Nat × Nat)) :
    (endpointsList adj).length = 2 * adj.length := by
  induction adj with
  | nil => rfl
  | cons e adj ih =>
    have : endpointsList (e :: adj) = e.1 :: e.2 :: endpointsList adj := rfl
    rw [this]
    simp only [List.length_cons, ih]
    omega

theorem unvisitedCount_le (adj : List (Nat × Nat)) (vis : List Nat) :
    unvisitedCount adj vis ≤ 2 * adj.length := by
  calc unvisitedCount adj vis ≤ (endpointsList adj).length := List.countP_le_length _
    _ = 2 * adj.length := endpointsList_length adj

theorem neighbors_length_le_count {adj : List (Nat × Nat)} {x : Nat} :
    (neighbors adj x).length ≤ (endpointsList adj).count x := by
  induction adj with
  | nil => simp [neighbors, endpointsList]
  | cons e adj ih =>
    have hn : neighbors (e :: adj) x =
        if e.1 = x then e.2 :: neighbors adj x
        else if e.2 = x then e.1 :: neighbors adj x
        else neighbors adj x := rfl
    have he : endpointsList (e :: adj) = e.1 :: e.2 :: endpointsList adj := rfl
    rw [hn, he]
    by_cases h1 : e.1 = x <;> by_cases h2 : e.2 = x <;>
      simp [List.count_cons, h1, h2] <;> omega

theorem countP_insert_split (l : List Nat) (vis : List Nat) (node : Nat)
    (h : ¬node ∈ vis) :
    l.countP (fun z => !decide (z ∈ node :: vis)) + l.count node =
      l.countP (fun z => !decide (z ∈ vis)) := by
  induction l with
  | nil => rfl
  | cons a l ih =>
    simp only [List.countP_cons, List.count_cons]
    by_cases ha : a = node
    · rw [ite_of_eq_false (by simp [ha] : (!decide (a ∈ node :: vis)) = false),
        ite_of_eq_true (by subst ha; simp [h] : (!decide (a ∈ vis)) = true),
        ite_of_eq_true (by simp [ha] : (a == node) = true)]
      omega
    · by_cases hv : a ∈ vis
      · rw [ite_of_eq_false (by simp [hv] : (!decide (a ∈ node :: vis)) = false),
          ite_of_eq_false (by simp [hv] : (!decide (a ∈ vis)) = false),
          ite_of_eq_false (by simp [ha] : (a == node) = false)]
        omega
      · rw [ite_of_eq_true (by simp [ha, hv] : (!decide (a ∈ node :: vis)) = true),
          ite_of_eq_true (by simp [hv] : (!decide (a ∈ vis)) = true),
          ite_of_eq_false (by simp [ha] : (a == node) = false)]
        omega

theorem unvisitedCount_insert {adj : List (Nat × Nat)} {vis : List Nat} {node : Nat}
    (h : ¬node ∈ vis) :
    unvisitedCount adj (node :: vis) + (endpointsList adj).count node =
      unvisitedCount adj vis :=
  countP_insert_split (endpointsList adj) vis node h

/-- Correctness of the fuelled stack DFS, by induction on the fuel.  The
invariant: `vis` is the initial visited set `V` plus the partial component;
everything on the stack or in the component is reachable from `x`; every
neighbour of a component member is visited or pending; and the fuel exceeds
the pending work. -/
theorem dfsAux_spec (adj : List (Nat × Nat)) (V : List Nat) (x : Nat)
    (hxV : ¬x ∈ V) :
    ∀ fuel stack vis comp,
    (∀ z, z ∈ vis ↔ z ∈ V ∨ z ∈ comp) →
    (∀ z ∈ comp, ReachAdj adj x z) →
    (∀ z ∈ stack, ReachAdj adj x z) →
    (∀ w ∈ comp, ∀ y, Adj adj w y → y ∈ vis ∨ y ∈ stack) →
    (x ∈ comp ∨ x ∈ stack) →
    comp.Nodup → vis.Nodup →
    stack.length + unvisitedCount adj vis < fuel →
    (∀ z, z ∈ (dfsAux adj fuel stack vis comp).1 ↔
        z ∈ V ∨ z ∈ (dfsAux adj fuel stack vis comp).2) ∧
    (∀ z ∈ (dfsAux adj fuel stack vis comp).2, ReachAdj adj x z) ∧
    (∀ w ∈ (dfsAux adj fuel stack vis comp).2, ∀ y, Adj adj w y →
        y ∈ (dfsAux adj fuel stack vis comp).1) ∧
    x ∈ (dfsAux adj fuel stack vis comp).2 ∧
    (dfsAux adj fuel stack vis comp).2.Nodup ∧
    (dfsAux adj fuel stack vis comp).1.Nodup := by
  intro fuel
  induction fuel with
  | zero =>
    intro stack vis comp _ _ _ _ _ _ _ hm
    omega
  | succ fuel ih =>
    intro stack vis comp hvis hcomp hstack hfront hseed hcnd hvnd hm
    cases stack with
    | nil =>
      have hstep : dfsAux adj (fuel + 1) [] vis comp = (vis, comp) := by
        simp only [dfsAux]
      rw [hstep]
      refine ⟨hvis, hcomp, ?_, ?_, hcnd, hvnd⟩
      · intro w hw y hy
        rcases hfront w hw y hy with h | h
        · exact h
        · cases h
      · rcases hseed with h | h
        · exact h
        · cases h
    | cons node rest =>
      by_cases hnode : node ∈ vis
      · have hstep : dfsAux adj (fuel + 1) (node :: rest) vis comp
            = dfsAux adj fuel rest vis comp := by
          simp only [dfsAux]
          rw [if_pos hnode]
        rw [hstep]
        refine ih rest vis comp hvis hcomp
          (fun z hz => hstack z (List.mem_cons_of_mem _ hz)) ?_ ?_ hcnd hvnd ?_
        · intro w hw y hy
          rcases hfront w hw y hy with h | h
          · exact Or.inl h
          · rcases List.mem_cons.mp h with rfl | h
            · exact Or.inl hnode
            · exact Or.inr h
        · rcases hseed with h | h
          · exact Or.inl h
          · rcases List.mem_cons.mp h with rfl | h
            · rcases (hvis x).mp hnode with h | h
              · exact absurd h hxV
              · exact Or.inl h
            · exact Or.inr h
        · simp only [List.length_cons] at hm
          omega
      · have hstep : dfsAux adj (fuel + 1) (node :: rest) vis comp
            = dfsAux adj fuel
                ((neighbors adj node).filter (fun y => ¬y ∈ node :: vis) ++ rest)
                (node :: vis) (node :: comp) := by
          simp only [dfsAux]
          rw [if_neg hnode]
        rw [hstep]
        have hreach_node : ReachAdj adj x node := hstack node (List.mem_cons_self _ _)
        refine ih _ _ _ ?_ ?_ ?_ ?_ ?_ ?_ ?_ ?_
        · intro z
          simp only [List.mem_cons]
          rw [hvis z]
          tauto
        · intro z hz
          rcases List.mem_cons.mp hz with rfl | hz
          · exact hreach_node
          · exact hcomp z hz
        · intro z hz
          rcases List.mem_append.mp hz with hz | hz
          · have := List.mem_filter.mp hz
            exact hreach_node.trans (ReachAdj.single (mem_neighbors.mp this.1))
          · exact hstack z (List.mem_cons_of_mem _ hz)
        · intro w hw y hy
          rcases List.mem_cons.mp hw with rfl | hw
          · by_cases hyv : y ∈ w :: vis
            · exact Or.inl hyv
            · refine Or.inr (List.mem_append_left _ ?_)
              exact List.mem_filter.mpr ⟨mem_neighbors.mpr hy, by simpa using hyv⟩
          · rcases hfront w hw y hy with h | h
            · exact Or.inl (List.mem_cons_of_mem _ h)
            · rcases List.mem_cons.mp h with rfl | h
              · exact Or.inl (List.mem_cons_self _ _)
              · exact Or.inr (List.mem_append_right _ h)
        · rcases hseed with h | h
          · exact Or.inl (List.mem_cons_of_mem _ h)
          · rcases List.mem_cons.mp h with rfl | h
            · exact Or.inl (List.mem_cons_self _ _)
            · exact Or.inr (List.mem_append_right _ h)
        · rw [List.nodup_cons]
          refine ⟨fun hc => hnode ((hvis node).mpr (Or.inr hc)), hcnd⟩
        · rw [List.nodup_cons]
          exact ⟨hnode, hvnd⟩
        · have h1 : ((neighbors adj node).filter
              (fun y => ¬y ∈ node :: vis) : List Nat).length
              ≤ (neighbors adj node).length := List.length_filter_le _ _
          have h2 : (neighbors adj node).length ≤ (endpointsList adj).count node :=
            neighbors_length_le_count
          have h3 : unvisitedCount adj (node :: vis) + (endpointsList adj).count node
              = unvisitedCount adj vis := unvisitedCount_insert hnode
          simp only [List.length_append, List.length_cons] at hm ⊢
          omega

/-- A single DFS launched on an unvisited start from an adjacency-closed
visited set computes exactly the reachable set of the start. -/
theorem dfs_correct (adj : List (Nat × Nat)) (V : List Nat) (x : Nat)
    (hVc : AdjClosed adj V) (hxV : ¬x ∈ V) (hVnd : V.Nodup) :
    (∀ z, z ∈ (dfsAux adj (dfsFuel adj) [x] V []).2 ↔ ReachAdj adj x z) ∧
    (∀ z, z ∈ (dfsAux adj (dfsFuel adj) [x] V []).1 ↔
        z ∈ V ∨ z ∈ (dfsAux adj (dfsFuel adj) [x] V []).2) ∧
    (dfsAux adj (dfsFuel adj) [x] V []).2.Nodup ∧
    (dfsAux adj (dfsFuel adj) [x] V []).1.Nodup ∧
    x ∈ (dfsAux adj (dfsFuel adj) [x] V []).2 := by
  have hfuel : ([x] : List Nat).length + unvisitedCount adj V < dfsFuel adj := by
    have := unvisitedCount_le adj V
    simp only [List.length_singleton, dfsFuel]
    omega
  obtain ⟨hvis, hreach, hfront, hx, hcnd, hvnd⟩ :=
    dfsAux_spec adj V x hxV (dfsFuel adj) [x] V []
      (fun z => by simp)
      (fun z hz => absurd hz (List.not_mem_nil z))
      (fun z hz => by rw [List.mem_singleton.mp hz]; exact ReachAdj.refl)
      (fun w hw => absurd hw (List.not_mem_nil w))
      (Or.inr (List.mem_singleton.mpr rfl))
      List.nodup_nil hVnd hfuel
  refine ⟨?_, hvis, hcnd, hvnd, hx⟩
  intro z
  constructor
  · exact fun hz => hreach z hz
  · intro hr
    induction hr with
    | refl => exact hx
    | @tail b c hxb step ihr =>
      have hb := ihr
      have hcv : c ∈ (dfsAux adj (dfsFuel adj) [x] V []).1 := hfront b hb c step
      rcases (hvis c).mp hcv with h | h
      · exact absurd h (reach_not_mem_closed hVc hxV (hxb.tail step))
      · exact h

/-- Correctness of the shared-visited multi-start scan: it produces exactly
the reachable sets of the first unvisited starts, pairwise disjoint and
disjoint from the initial visited set. -/
theorem scanStarts_spec (adj : List (Nat × Nat)) :
    ∀ (starts vis : List Nat), AdjClosed adj vis → vis.Nodup →
    (∀ c ∈ (scanStarts adj starts vis).1, ∃ x, x ∈ starts ∧ ¬x ∈ vis ∧ x ∈ c ∧
        (∀ z, z ∈ c ↔ ReachAdj adj x z) ∧ c.Nodup) ∧
    (∀ z, z ∈ (scanStarts adj starts vis).2 ↔
        z ∈ vis ∨ ∃ c ∈ (scanStarts adj starts vis).1, z ∈ c) ∧
    AdjClosed adj (scanStarts adj starts vis).2 ∧
    (scanStarts adj starts vis).2.Nodup ∧
    (∀ x ∈ starts, x ∈ (scanStarts adj starts vis).2) ∧
    (∀ c ∈ (scanStarts adj starts vis).1, ∀ z ∈ c, ¬z ∈ vis) ∧
    List.Pairwise (fun c d => ∀ z, z ∈ c → ¬z ∈ d) (scanStarts adj starts vis).1 := by
  intro starts
  induction starts with
  | nil =>
    intro vis hVc hVnd
    refine ⟨?_, ?_, hVc, hVnd, ?_, ?_, ?_⟩
    · intro c hc
      cases hc
    · intro z
      simp [scanStarts]
    · intro x hx
      cases hx
    · intro c hc
      cases hc
    · exact List.Pairwise.nil
  | cons x xs ih =>
    intro vis hVc hVnd
    by_cases hx : x ∈ vis
    · have hstep : scanStarts adj (x :: xs) vis = scanStarts adj xs vis := by
        simp only [scanStarts]
        rw [if_pos hx]
      rw [hstep]
      obtain ⟨hcomps, hvis, hclosed, hnd, hsts, hdisj, hpw⟩ := ih vis hVc hVnd
      refine ⟨?_, hvis, hclosed, hnd, ?_, hdisj, hpw⟩
      · intro c hc
        obtain ⟨y, hy1, hy2, hy3⟩ := hcomps c hc
        exact ⟨y, List.mem_cons_of_mem _ hy1, hy2, hy3⟩
      · intro y hy
        rcases List.mem_cons.mp hy with rfl | hy
        · exact (hvis y).mpr (Or.inl hx)
        · exact hsts y hy
    · have hstep : scanStarts adj (x :: xs) vis =
          ((dfsAux adj (dfsFuel adj) [x] vis []).2 ::
              (scanStarts adj xs (dfsAux adj (dfsFuel adj) [x] vis []).1).1,
            (scanStarts adj xs (dfsAux adj (dfsFuel adj) [x] vis []).1).2) := by
        simp only [scanStarts]
        rw [if_neg hx]
      obtain ⟨hdfs_comp, hdfs_vis, hdfs_cnd, hdfs_vnd, hdfs_x⟩ :=
        dfs_correct adj vis x hVc hx hVnd
      set c0 := (dfsAux adj (dfsFuel adj) [x] vis []).2 with hc0
      set vis1 := (dfsAux adj (dfsFuel adj) [x] vis []).1 with hvis1
      have hvis1closed : AdjClosed adj vis1 := by
        intro v hv y hy
        rcases (hdfs_vis v).mp hv with h | h
        · exact (hdfs_vis y).mpr (Or.inl (hVc v h y hy))
        · refine (hdfs_vis y).mpr (Or.inr ?_)
          exact (hdfs_comp y).mpr (((hdfs_comp v).mp h).tail hy)
      have hc0vis : ∀ z ∈ c0, ¬z ∈ vis := by
        intro z hz
        exact reach_not_mem_closed hVc hx ((hdfs_comp z).mp hz)
      obtain ⟨hcomps, hvis2, hclosed, hnd, hsts, hdisj, hpw⟩ :=
        ih vis1 hvis1closed hdfs_vnd
      rw [hstep]
      refine ⟨?_, ?_, hclosed, hnd, ?_, ?_, ?_⟩
      · intro c hc
        rcases List.mem_cons.mp hc with rfl | hc
        · exact ⟨x, List.mem_cons_self _ _, hx, hdfs_x, hdfs_comp, hdfs_cnd⟩
        · obtain ⟨y, hy1, hy2, hy3, hy4, hy5⟩ := hcomps c hc
          refine ⟨y, List.mem_cons_of_mem _ hy1, ?_, hy3, hy4, hy5⟩
          exact fun hyv => hy2 ((hdfs_vis y).mpr (Or.inl hyv))
      · intro z
        rw [hvis2 z, hdfs_vis z]
        constructor
        · rintro ((h | h) | ⟨c, hc, hzc⟩)
          · exact Or.inl h
          · exact Or.inr ⟨c0, List.mem_cons_self _ _, h⟩
          · exact Or.inr ⟨c, List.mem_cons_of_mem _ hc, hzc⟩
        · rintro (h | ⟨c, hc, hzc⟩)
          · exact Or.inl (Or.inl h)
          · rcases List.mem_cons.mp hc with rfl | hc
            · exact Or.inl (Or.inr hzc)
            · exact Or.inr ⟨c, hc, hzc⟩
      · intro y hy
        rcases List.mem_cons.mp hy with rfl | hy
        · exact (hvis2 y).mpr (Or.inl ((hdfs_vis y).mpr (Or.inr hdfs_x)))
        · exact hsts y hy
      · intro c hc z hz
        rcases List.mem_cons.mp hc with rfl | hc
        · exact hc0vis z hz
        · exact fun hzv => hdisj c hc z hz ((hdfs_vis z).mpr (Or.inl hzv))
      · rw [List.pairwise_cons]
        refine ⟨?_, hpw⟩
        intro d hd z hzc0 hzd
        exact hdisj d hd z hzd ((hdfs_vis z).mpr (Or.inr hzc0))

-- ---------------------------------------------------------------------------
-- Value-store lemmas
-- ---------------------------------------------------------------------------

theorem readVal_cons (p : Nat × LogicValue) (st : ValStore) (z : Nat) :
    readVal (p :: st) z = if p.1 = z then p.2 else readVal st z := by
  by_cases h : p.1 = z
  · simp [readVal, List.find?_cons, h]
  · simp [readVal, List.find?_cons, h]

theorem readVal_map_ne (st : ValStore) (n : Nat) (v : LogicValue) (z : Nat)
    (hz : ¬z = n) :
    readVal (st.map (fun p => if p.1 = n then (n, v) else p)) z = readVal st z := by
  induction st with
  | nil => rfl
  | cons p st ih =>
    by_cases hp : p.1 = n
    · have h1 : ¬(n = z) := fun h => hz h.symm
      have h2 : ¬(p.1 = z) := by rw [hp]; exact h1
      rw [List.map_cons, if_pos hp, readVal_cons, readVal_cons, if_neg h1, if_neg h2]
      exact ih
    · rw [List.map_cons, if_neg hp, readVal_cons, readVal_cons]
      by_cases hpz : p.1 = z
      · rw [if_pos hpz, if_pos hpz]
      · rw [if_neg hpz, if_neg hpz]
        exact ih

theorem readVal_map_self (st : ValStore) (n : Nat) (v : LogicValue)
    (hmem : st.any (fun p => p.1 = n) = true) :
    readVal (st.map (fun p => if p.1 = n then (n, v) else p)) n = v := by
  induction st with
  | nil => cases hmem
  | cons p st ih =>
    by_cases hp : p.1 = n
    · rw [List.map_cons, if_pos hp, readVal_cons]
      exact if_pos rfl
    · rw [List.map_cons, if_neg hp, readVal_cons, if_neg hp]
      refine ih ?_
      simpa [List.any_cons, hp] using hmem

theorem readVal_append_single (st : ValStore) (n : Nat) (v : LogicValue) (z : Nat)
    (habs : ∀ p ∈ st, ¬p.1 = n) :
    readVal (st ++ [(n, v)]) z = if z = n then v else readVal st z := by
  induction st with
  | nil =>
    rw [List.nil_append, readVal_cons]
    by_cases hz : z = n
    · rw [if_pos hz.symm, if_pos hz]
    · have h1 : ¬(n = z) := fun h => hz h.symm
      rw [if_neg h1, if_neg hz]
  | cons p st ih =>
    have hpn : ¬p.1 = n := habs p (List.mem_cons_self _ _)
    rw [List.cons_append, readVal_cons, readVal_cons]
    by_cases hpz : p.1 = z
    · have hzn : ¬z = n := by rw [← hpz]; exact hpn
      rw [if_pos hpz, if_neg hzn, if_pos hpz]
    · rw [if_neg hpz, if_neg hpz]
      exact ih (fun q hq => habs q (List.mem_cons_of_mem _ hq))

/-- Reading through a write: the written node reads the new value, others are
unchanged. -/
theorem readVal_writeVal (st : ValStore) (n : Nat) (v : LogicValue) (z : Nat) :
    readVal (writeVal st n v) z = if z = n then v else readVal st z := by
  unfold writeVal
  by_cases hmem : st.any (fun p => p.1 = n) = true
  · rw [if_pos hmem]
    by_cases hz : z = n
    · subst hz
      rw [if_pos rfl]
      exact readVal_map_self st z v hmem
    · rw [if_neg hz]
      exact readVal_map_ne st n v z hz
  · rw [if_neg hmem]
    refine readVal_append_single st n v z ?_
    intro p hp hpn
    exact hmem (List.any_eq_true.mpr ⟨p, hp, by simpa using hpn⟩)

theorem mem_listInsert {α : Type} [DecidableEq α] {xs : List α} {x t : α} :
    t ∈ listInsert xs x ↔ t ∈ xs ∨ t = x := by
  unfold listInsert
  split
  · rename_i hmem
    constructor
    · exact Or.inl
    · rintro (h | rfl)
      · exact h
      · exact hmem
  · simp

theorem listInsert_nodup {α : Type} [DecidableEq α] {xs : List α} {x : α}
    (h : xs.Nodup) : (listInsert xs x).Nodup := by
  unfold listInsert
  split
  · exact h
  · rename_i hmem
    simpa [List.nodup_append] using ⟨h, hmem⟩

-- ---------------------------------------------------------------------------
-- Phase 1: `_resolve_node_components`
-- ---------------------------------------------------------------------------

theorem findTransistor_mem {s : Sim} {g : Nat} (h : s.isGate g = true) :
    s.findTransistor g ∈ s.trans := by
  unfold Sim.isGate at h
  obtain ⟨t, ht, hg⟩ := List.any_eq_true.mp h
  have hsome : (s.trans.find? (fun t => t.gate = g)).isSome :=
    List.find?_isSome.mpr ⟨t, ht, hg⟩
  obtain ⟨u, hu⟩ := Option.isSome_iff_exists.mp hsome
  unfold Sim.findTransistor
  rw [hu]
  exact List.mem_of_find?_eq_some hu

theorem resolveStep_fields (v : LogicValue) (s1 : Sim) (node : Nat) :
    (resolveStep v s1 node).nodes = s1.nodes ∧
    (resolveStep v s1 node).dflt = s1.dflt ∧
    (resolveStep v s1 node).adj = s1.adj ∧
    (resolveStep v s1 node).trans = s1.trans ∧
    (resolveStep v s1 node).comps = s1.comps ∧
    (resolveStep v s1 node).dirtyComps = s1.dirtyComps ∧
    (resolveStep v s1 node).dirty = s1.dirty := by
  unfold resolveStep
  split <;> exact ⟨rfl, rfl, rfl, rfl, rfl, rfl, rfl⟩

theorem resolveStep_rslvAt (v : LogicValue) (s1 : Sim) (node z : Nat) :
    (resolveStep v s1 node).rslvAt z = if z = node then v else s1.rslvAt z := by
  unfold resolveStep Sim.rslvAt
  split <;> exact readVal_writeVal _ _ _ _

theorem resolveStep_dirtyTrans (v : LogicValue) (s1 : Sim) (node : Nat) :
    ∀ t ∈ (resolveStep v s1 node).dirtyTrans, t ∈ s1.dirtyTrans ∨ t ∈ s1.trans := by
  unfold resolveStep
  split
  · rename_i h
    intro t ht
    rcases mem_listInsert.mp ht with h1 | rfl
    · exact Or.inl h1
    · exact Or.inr (findTransistor_mem (by simpa using h.1))
  · exact fun t ht => Or.inl ht

theorem foldl_resolveStep_fields (v : LogicValue) :
    ∀ (group : List Nat) (t : Sim),
    (group.foldl (resolveStep v) t).nodes = t.nodes ∧
    (group.foldl (resolveStep v) t).dflt = t.dflt ∧
    (group.foldl (resolveStep v) t).adj = t.adj ∧
    (group.foldl (resolveStep v) t).trans = t.trans ∧
    (group.foldl (resolveStep v) t).comps = t.comps ∧
    (group.foldl (resolveStep v) t).dirtyComps = t.dirtyComps ∧
    (group.foldl (resolveStep v) t).dirty = t.dirty := by
  intro group
  induction group with
  | nil => exact fun t => ⟨rfl, rfl, rfl, rfl, rfl, rfl, rfl⟩
  | cons n rest ih =>
    intro t
    rw [List.foldl_cons]
    obtain ⟨h1, h2, h3, h4, h5, h6, h7⟩ := ih (resolveStep v t n)
    obtain ⟨g1, g2, g3, g4, g5, g6, g7⟩ := resolveStep_fields v t n
    exact ⟨h1.trans g1, h2.trans g2, h3.trans g3, h4.trans g4, h5.trans g5,
      h6.trans g6, h7.trans g7⟩

theorem foldl_resolveStep_rslvAt (v : LogicValue) :
    ∀ (group : List Nat) (t : Sim) (z : Nat),
    (group.foldl (resolveStep v) t).rslvAt z = if z ∈ group then v else t.rslvAt z := by
  intro group
  induction group with
  | nil =>
    intro t z
    rw [List.foldl_nil, if_neg (List.not_mem_nil z)]
  | cons n rest ih =>
    intro t z
    rw [List.foldl_cons, ih (resolveStep v t n) z, resolveStep_rslvAt]
    by_cases hr : z ∈ rest
    · rw [if_pos hr, if_pos (List.mem_cons_of_mem _ hr)]
    · rw [if_neg hr]
      by_cases hn : z = n
      · rw [if_pos hn, if_pos (List.mem_cons.mpr (Or.inl hn))]
      · rw [if_neg hn, if_neg (by simp [hn, hr])]

theorem foldl_resolveStep_dirtyTrans (v : LogicValue) :
    ∀ (group : List Nat) (t : Sim),
    ∀ x ∈ (group.foldl (resolveStep v) t).dirtyTrans, x ∈ t.dirtyTrans ∨ x ∈ t.trans := by
  intro group
  induction group with
  | nil => exact fun t x hx => Or.inl hx
  | cons n rest ih =>
    intro t x hx
    rw [List.foldl_cons] at hx
    rcases ih (resolveStep v t n) x hx with h | h
    · rcases resolveStep_dirtyTrans v t n x h with h1 | h1
      · exact Or.inl h1
      · exact Or.inr h1
    · rw [(resolveStep_fields v t n).2.2.2.1] at h
      exact Or.inr h

theorem resolveGroup_fields (s : Sim) (group : List Nat) :
    (resolveGroup s group).nodes = s.nodes ∧
    (resolveGroup s group).dflt = s.dflt ∧
    (resolveGroup s group).adj = s.adj ∧
    (resolveGroup s group).trans = s.trans ∧
    (resolveGroup s group).comps = s.comps ∧
    (resolveGroup s group).dirtyComps = s.dirtyComps ∧
    (resolveGroup s group).dirty = s.dirty :=
  foldl_resolveStep_fields _ group s

theorem resolveGroup_rslvAt (s : Sim) (group : List Nat) (z : Nat) :
    (resolveGroup s group).rslvAt z =
      if z ∈ group then LogicValue.resolve_all (group.map s.dfltAt)
      else s.rslvAt z :=
  foldl_resolveStep_rslvAt _ group s z

theorem resolveGroup_dirtyTrans (s : Sim) (group : List Nat) :
    ∀ x ∈ (resolveGroup s group).dirtyTrans, x ∈ s.dirtyTrans ∨ x ∈ s.trans :=
  foldl_resolveStep_dirtyTrans _ group s

theorem Sim.dfltAt_congr {s t : Sim} (h : s.dflt = t.dflt) : s.dfltAt = t.dfltAt := by
  funext n
  unfold Sim.dfltAt
  rw [h]

theorem foldGroups_fields :
    ∀ (D : List (List Nat)) (t : Sim),
    (D.foldl resolveGroup t).nodes = t.nodes ∧
    (D.foldl resolveGroup t).dflt = t.dflt ∧
    (D.foldl resolveGroup t).adj = t.adj ∧
    (D.foldl resolveGroup t).trans = t.trans ∧
    (D.foldl resolveGroup t).comps = t.comps ∧
    (D.foldl resolveGroup t).dirtyComps = t.dirtyComps ∧
    (D.foldl resolveGroup t).dirty = t.dirty := by
  intro D
  induction D with
  | nil => exact fun t => ⟨rfl, rfl, rfl, rfl, rfl, rfl, rfl⟩
  | cons d D ih =>
    intro t
    rw [List.foldl_cons]
    obtain ⟨h1, h2, h3, h4, h5, h6, h7⟩ := ih (resolveGroup t d)
    obtain ⟨g1, g2, g3, g4, g5, g6, g7⟩ := resolveGroup_fields t d
    exact ⟨h1.trans g1, h2.trans g2, h3.trans g3, h4.trans g4, h5.trans g5,
      h6.trans g6, h7.trans g7⟩

theorem foldGroups_rslvAt_not_mem :
    ∀ (D : List (List Nat)) (t : Sim) (z : Nat), (∀ d ∈ D, ¬z ∈ d) →
    (D.foldl resolveGroup t).rslvAt z = t.rslvAt z := by
  intro D
  induction D with
  | nil => exact fun t z _ => rfl
  | cons d D ih =>
    intro t z hz
    rw [List.foldl_cons, ih (resolveGroup t d) z
      (fun d' hd' => hz d' (List.mem_cons_of_mem _ hd')),
      resolveGroup_rslvAt, if_neg (hz d (List.mem_cons_self _ _))]

theorem foldGroups_rslvAt_mem :
    ∀ (D : List (List Nat)) (t : Sim) (d : List Nat) (z : Nat),
    d ∈ D → z ∈ d → (∀ d' ∈ D, z ∈ d' → d' = d) → D.Nodup →
    (D.foldl resolveGroup t).rslvAt z = LogicValue.resolve_all (d.map t.dfltAt) := by
  intro D
  induction D with
  | nil => intro t d z hd; cases hd
  | cons e D ih =>
    intro t d z hd hz hun hnd
    rw [List.foldl_cons]
    rcases List.mem_cons.mp hd with rfl | hd
    · have hznotD : ∀ d' ∈ D, ¬z ∈ d' := by
        intro d' hd' hzd'
        have := hun d' (List.mem_cons_of_mem _ hd') hzd'
        subst this
        exact (List.nodup_cons.mp hnd).1 hd'
      rw [foldGroups_rslvAt_not_mem D (resolveGroup t d) z hznotD,
        resolveGroup_rslvAt, if_pos hz]
    · have hne : ¬z ∈ e := by
        intro hze
        have := hun e (List.mem_cons_self _ _) hze
        subst this
        exact (List.nodup_cons.mp hnd).1 hd
      have hdflt : (resolveGroup t e).dfltAt = t.dfltAt :=
        Sim.dfltAt_congr (resolveGroup_fields t e).2.1
      rw [ih (resolveGroup t e) d z hd hz
        (fun d' hd' => hun d' (List.mem_cons_of_mem _ hd'))
        (List.nodup_cons.mp hnd).2, hdflt]

theorem foldGroups_dirtyTrans :
    ∀ (D : List (List Nat)) (t : Sim),
    ∀ x ∈ (D.foldl resolveGroup t).dirtyTrans, x ∈ t.dirtyTrans ∨ x ∈ t.trans := by
  intro D
  induction D with
  | nil => exact fun t x hx => Or.inl hx
  | cons d D ih =>
    intro t x hx
    rw [List.foldl_cons] at hx
    rcases ih (resolveGroup t d) x hx with h | h
    · exact resolveGroup_dirtyTrans t d x h
    · rw [(resolveGroup_fields t d).2.2.2.1] at h
      exact Or.inr h

/-- Effect of `_resolve_node_components`: bookkeeping fields, dirty-transistor
provenance, and the resolved values (unchanged off the dirty components; the
wired resolution of the member defaults on them). -/
theorem resolveNC_spec (s : Sim) :
    (s.resolveNodeComponents).nodes = s.nodes ∧
    (s.resolveNodeComponents).dflt = s.dflt ∧
    (s.resolveNodeComponents).adj = s.adj ∧
    (s.resolveNodeComponents).trans = s.trans ∧
    (s.resolveNodeComponents).comps = s.comps ∧
    (s.resolveNodeComponents).dirtyComps = [] ∧
    (s.resolveNodeComponents).dirty = s.dirty ∧
    (∀ x ∈ (s.resolveNodeComponents).dirtyTrans, x ∈ s.dirtyTrans ∨ x ∈ s.trans) ∧
    (∀ z, (∀ d ∈ s.dirtyComps, ¬z ∈ d) →
      (s.resolveNodeComponents).rslvAt z = s.rslvAt z) ∧
    (∀ d ∈ s.dirtyComps, ∀ z ∈ d, (∀ d' ∈ s.dirtyComps, z ∈ d' → d' = d) →
      s.dirtyComps.Nodup →
      (s.resolveNodeComponents).rslvAt z = LogicValue.resolve_all (d.map s.dfltAt)) := by
  obtain ⟨h1, h2, h3, h4, h5, h6, h7⟩ := foldGroups_fields s.dirtyComps s
  unfold Sim.resolveNodeComponents
  refine ⟨h1, h2, h3, h4, h5, rfl, h7, ?_, ?_, ?_⟩
  · exact fun x hx => foldGroups_dirtyTrans s.dirtyComps s x hx
  · exact fun z hz => foldGroups_rslvAt_not_mem s.dirtyComps s z hz
  · exact fun d hd z hz hun hnd => foldGroups_rslvAt_mem s.dirtyComps s d z hd hz hun hnd

-- ---------------------------------------------------------------------------
-- Phase 2: `_update_transistor_connections`
-- ---------------------------------------------------------------------------

theorem disj_symmetric : Symmetric (fun (c d : List Nat) => ∀ z, z ∈ c → ¬z ∈ d) := by
  intro c d h z hzd hzc
  exact h z hzc hzd

/-- On a pairwise-disjoint family, a common member forces equality. -/
theorem partition_unique {comps : List (List Nat)}
    (hpw : List.Pairwise (fun c d => ∀ z, z ∈ c → ¬z ∈ d) comps)
    {c d : List Nat} (hc : c ∈ comps) (hd : d ∈ comps) {z : Nat}
    (hzc : z ∈ c) (hzd : z ∈ d) : c = d := by
  by_contra hne
  exact List.Pairwise.forall disj_symmetric hpw hc hd hne z hzc hzd

theorem findCompL_spec {comps : List (List Nat)} {nodes : List Nat}
    (hcov : ∀ z ∈ nodes, ∃ c ∈ comps, z ∈ c) {x : Nat} (hx : x ∈ nodes) :
    findCompL comps x ∈ comps ∧ x ∈ findCompL comps x := by
  unfold findCompL
  cases hfind : comps.find? (fun c => x ∈ c) with
  | none =>
    exfalso
    obtain ⟨c, hc, hxc⟩ := hcov x hx
    have := List.find?_eq_none.mp hfind c hc
    simp [hxc] at this
  | some c =>
    have h1 := List.mem_of_find?_eq_some hfind
    have h2 := List.find?_some hfind
    simp only [decide_eq_true_eq] at h2
    exact ⟨h1, h2⟩

theorem Adj_edgeInsert_mono {adj : List (Nat × Nat)} {a b x y : Nat}
    (h : Adj adj x y) : Adj (edgeInsert adj a b) x y := by
  unfold edgeInsert
  split
  · exact h
  · split
    · exact h
    · rcases h with h | h
      · exact Or.inl (List.mem_append_left _ h)
      · exact Or.inr (List.mem_append_left _ h)

/-- A path inside a closed component transfers onto a modified edge list as
long as every step from the component is preserved. -/
theorem reach_transfer {adjOld adjNew : List (Nat × Nat)} {c : List Nat}
    (hcl : ∀ w ∈ c, ∀ y, Adj adjOld w y → y ∈ c)
    (hstep : ∀ p q, p ∈ c → Adj adjOld p q → Adj adjNew p q) :
    ∀ {w y : Nat}, w ∈ c → ReachAdj adjOld w y → ReachAdj adjNew w y ∧ y ∈ c := by
  intro w y hw hr
  induction hr with
  | refl => exact ⟨ReachAdj.refl, hw⟩
  | @tail p q _ step ih =>
    obtain ⟨hreach, hpc⟩ := ih
    exact ⟨hreach.tail (hstep p q hpc step), hcl p hpc q step⟩

/-- The net effect of one `transStep` on the record. -/
theorem transStep_eq (u : Sim) (t : TransR) :
    transStep u t = { u with
      adj := if t.isConducting u.rslvAt then edgeInsert u.adj t.source t.drain
             else edgeErase u.adj t.source t.drain,
      dirtyComps := listInsert (listInsert u.dirtyComps (u.findComp t.source))
        (u.findComp t.drain) } := rfl

/-- Invariant carried along the `_update_transistor_connections` fold,
relative to the phase entry state `s1`. -/
structure TCInv (s1 u : Sim) : Prop where
  nodes : u.nodes = s1.nodes
  dflt : u.dflt = s1.dflt
  rslv : u.rslv = s1.rslv
  trans : u.trans = s1.trans
  comps : u.comps = s1.comps
  dirty : u.dirty = s1.dirty
  dirtyTr : u.dirtyTrans = s1.dirtyTrans
  adjND : u.adj.Nodup
  adjCanon : ∀ e ∈ u.adj, e.1 < e.2
  adjScope : ∀ e ∈ u.adj, e.1 ∈ u.nodes ∧ e.2 ∈ u.nodes
  dirtySub : ∀ c ∈ u.dirtyComps, c ∈ u.comps
  dirtyND : u.dirtyComps.Nodup
  cleanGeo : ∀ c ∈ u.comps, ¬c ∈ u.dirtyComps →
    (∀ w ∈ c, ∀ y, Adj u.adj w y → y ∈ c) ∧ (∀ w ∈ c, ∀ y ∈ c, ReachAdj u.adj w y)

theorem transStep_TCInv {s1 u : Sim}
    (hcov : ∀ z ∈ s1.nodes, ∃ c ∈ s1.comps, z ∈ c)
    (hdisj : List.Pairwise (fun c d => ∀ z, z ∈ c → ¬z ∈ d) s1.comps)
    (hP : TCInv s1 u) {t : TransR}
    (htsc : t.source ∈ s1.nodes) (htdr : t.drain ∈ s1.nodes) :
    TCInv s1 (transStep u t) := by
  have hcovu : ∀ z ∈ s1.nodes, ∃ c ∈ u.comps, z ∈ c := by
    rw [hP.comps]
    exact hcov
  have hdisju : List.Pairwise (fun c d => ∀ z, z ∈ c → ¬z ∈ d) u.comps := by
    rw [hP.comps]
    exact hdisj
  have hfs := findCompL_spec hcovu htsc
  have hfd := findCompL_spec hcovu htdr
  rw [transStep_eq]
  refine ⟨hP.nodes, hP.dflt, hP.rslv, hP.trans, hP.comps, hP.dirty, hP.dirtyTr,
    ?_, ?_, ?_, ?_, ?_, ?_⟩
  · by_cases hc : t.isConducting u.rslvAt
    · rw [if_pos hc]
      exact edgeInsert_nodup hP.adjND
    · rw [if_neg hc]
      exact edgeErase_nodup hP.adjND
  · by_cases hc : t.isConducting u.rslvAt
    · rw [if_pos hc]
      exact edgeInsert_canon hP.adjCanon
    · rw [if_neg hc]
      exact edgeErase_canon hP.adjCanon
  · have hsrc : t.source ∈ u.nodes := by rw [hP.nodes]; exact htsc
    have hdrn : t.drain ∈ u.nodes := by rw [hP.nodes]; exact htdr
    by_cases hc : t.isConducting u.rslvAt
    · rw [if_pos hc]
      exact edgeInsert_scope hP.adjScope hsrc hdrn
    · rw [if_neg hc]
      exact edgeErase_scope hP.adjScope
  · intro c hc
    rcases mem_listInsert.mp hc with hc | rfl
    · rcases mem_listInsert.mp hc with hc | rfl
      · exact hP.dirtySub c hc
      · exact hfs.1
    · exact hfd.1
  · exact listInsert_nodup (listInsert_nodup hP.dirtyND)
  · intro c hc hcd
    have hc1 : ¬c ∈ u.dirtyComps := fun h =>
      hcd (mem_listInsert.mpr (Or.inl (mem_listInsert.mpr (Or.inl h))))
    have hcfs : ¬c = u.findComp t.source := fun h =>
      hcd (mem_listInsert.mpr (Or.inl (mem_listInsert.mpr (Or.inr h))))
    have hcfd : ¬c = u.findComp t.drain := fun h => hcd (mem_listInsert.mpr (Or.inr h))
    obtain ⟨hclosed, hconn⟩ := hP.cleanGeo c hc hc1
    have hsrcc : ¬t.source ∈ c := fun h =>
      hcfs (partition_unique hdisju hc hfs.1 h hfs.2)
    have hdrnc : ¬t.drain ∈ c := fun h =>
      hcfd (partition_unique hdisju hc hfd.1 h hfd.2)
    by_cases hsd : t.source = t.drain
    · have hadj : (if t.isConducting u.rslvAt then edgeInsert u.adj t.source t.drain
          else edgeErase u.adj t.source t.drain) = u.adj := by
        by_cases hcnd : t.isConducting u.rslvAt
        · rw [if_pos hcnd]
          unfold edgeInsert
          rw [if_pos hsd]
        · rw [if_neg hcnd]
          unfold edgeErase
          rw [if_pos hsd]
      rw [hadj]
      exact ⟨hclosed, hconn⟩
    · by_cases hcnd : t.isConducting u.rslvAt
      · rw [if_pos hcnd]
        constructor
        · intro w hw y hy
          rcases (Adj_edgeInsert hsd).mp hy with h | ⟨rfl, rfl⟩ | ⟨rfl, rfl⟩
          · exact hclosed w hw y h
          · exact absurd hw hsrcc
          · exact absurd hw hdrnc
        · intro w hw y hy
          exact (reach_transfer hclosed
            (fun p q _ h => Adj_edgeInsert_mono h) hw (hconn w hw y hy)).1
      · rw [if_neg hcnd]
        constructor
        · intro w hw y hy
          exact hclosed w hw y ((Adj_edgeErase hsd hP.adjND hP.adjCanon).mp hy).1
        · intro w hw y hy
          refine (reach_transfer hclosed ?_ hw (hconn w hw y hy)).1
          intro p q hp h
          refine (Adj_edgeErase hsd hP.adjND hP.adjCanon).mpr ⟨h, ?_⟩
          rintro (⟨rfl, rfl⟩ | ⟨rfl, rfl⟩)
          · exact hsrcc hp
          · exact hdrnc hp

theorem foldl_transStep_TCInv {s1 : Sim}
    (hcov : ∀ z ∈ s1.nodes, ∃ c ∈ s1.comps, z ∈ c)
    (hdisj : List.Pairwise (fun c d => ∀ z, z ∈ c → ¬z ∈ d) s1.comps)
    (htsc : ∀ t ∈ s1.trans, t.source ∈ s1.nodes ∧ t.drain ∈ s1.nodes) :
    ∀ (ts : List TransR) (u : Sim), (∀ t ∈ ts, t ∈ s1.trans) → TCInv s1 u →
    TCInv s1 (ts.foldl transStep u) := by
  intro ts
  induction ts with
  | nil => exact fun u _ hP => hP
  | cons t ts ih =>
    intro u hts hP
    rw [List.foldl_cons]
    refine ih (transStep u t) (fun t' ht' => hts t' (List.mem_cons_of_mem _ ht')) ?_
    have ht := hts t (List.mem_cons_self _ _)
    exact transStep_TCInv hcov hdisj hP (htsc t ht).1 (htsc t ht).2

/-- Effect of `_update_transistor_connections` on a phase-2 entry state. -/
theorem updateTC_spec (s1 : Sim)
    (hcov : ∀ z ∈ s1.nodes, ∃ c ∈ s1.comps, z ∈ c)
    (hdisj : List.Pairwise (fun c d => ∀ z, z ∈ c → ¬z ∈ d) s1.comps)
    (htsc : ∀ t ∈ s1.trans, t.source ∈ s1.nodes ∧ t.drain ∈ s1.nodes)
    (hsub : ∀ t ∈ s1.dirtyTrans, t ∈ s1.trans)
    (hadjND : s1.adj.Nodup) (hadjCanon : ∀ e ∈ s1.adj, e.1 < e.2)
    (hadjScope : ∀ e ∈ s1.adj, e.1 ∈ s1.nodes ∧ e.2 ∈ s1.nodes)
    (hdS : ∀ c ∈ s1.dirtyComps, c ∈ s1.comps) (hdND : s1.dirtyComps.Nodup)
    (hclean : ∀ c ∈ s1.comps, ¬c ∈ s1.dirtyComps →
      (∀ w ∈ c, ∀ y, Adj s1.adj w y → y ∈ c) ∧
      (∀ w ∈ c, ∀ y ∈ c, ReachAdj s1.adj w y)) :
    s1.updateTransistorConnections.nodes = s1.nodes ∧
    s1.updateTransistorConnections.dflt = s1.dflt ∧
    s1.updateTransistorConnections.rslv = s1.rslv ∧
    s1.updateTransistorConnections.trans = s1.trans ∧
    s1.updateTransistorConnections.comps = s1.comps ∧
    s1.updateTransistorConnections.dirty = s1.dirty ∧
    s1.updateTransistorConnections.dirtyTrans = [] ∧
    s1.updateTransistorConnections.adj.Nodup ∧
    (∀ e ∈ s1.updateTransistorConnections.adj, e.1 < e.2) ∧
    (∀ e ∈ s1.updateTransistorConnections.adj, e.1 ∈ s1.nodes ∧ e.2 ∈ s1.nodes) ∧
    (∀ c ∈ s1.updateTransistorConnections.dirtyComps, c ∈ s1.comps) ∧
    s1.updateTransistorConnections.dirtyComps.Nodup ∧
    (∀ c ∈ s1.comps, ¬c ∈ s1.updateTransistorConnections.dirtyComps →
      (∀ w ∈ c, ∀ y, Adj s1.updateTransistorConnections.adj w y → y ∈ c) ∧
      (∀ w ∈ c, ∀ y ∈ c, ReachAdj s1.updateTransistorConnections.adj w y)) := by
  have hbase : TCInv s1 s1 :=
    ⟨rfl, rfl, rfl, rfl, rfl, rfl, rfl, hadjND, hadjCanon, hadjScope, hdS, hdND, hclean⟩
  have hfold := foldl_transStep_TCInv hcov hdisj htsc s1.dirtyTrans s1 hsub hbase
  unfold Sim.updateTransistorConnections
  refine ⟨hfold.nodes, hfold.dflt, hfold.rslv, hfold.trans, hfold.comps, hfold.dirty,
    rfl, hfold.adjND, hfold.adjCanon, ?_, ?_, hfold.dirtyND, ?_⟩
  · intro e he
    have := hfold.adjScope e he
    rw [hfold.nodes] at this
    exact this
  · intro c hc
    have := hfold.dirtySub c hc
    rw [hfold.comps] at this
    exact this
  · intro c hc
    rw [← hfold.comps] at hc
    exact hfold.cleanGeo c hc

-- ---------------------------------------------------------------------------
-- Phase 3: `_update_node_components`, and the loop invariant
-- ---------------------------------------------------------------------------

/-- The invariant holding at the top of every `tick` loop iteration. -/
structure LoopInv (s : Sim) : Prop where
  nodesND : s.nodes.Nodup
  adjND : s.adj.Nodup
  adjCanon : ∀ e ∈ s.adj, e.1 < e.2
  adjScope : ∀ e ∈ s.adj, e.1 ∈ s.nodes ∧ e.2 ∈ s.nodes
  transScope : ∀ t ∈ s.trans, t.source ∈ s.nodes ∧ t.drain ∈ s.nodes
  compsScope : ∀ c ∈ s.comps, ∀ z ∈ c, z ∈ s.nodes
  compsND : ∀ c ∈ s.comps, c.Nodup
  compsNE : ∀ c ∈ s.comps, c ≠ []
  cover : ∀ z ∈ s.nodes, ∃ c ∈ s.comps, z ∈ c
  disjoint : List.Pairwise (fun c d => ∀ z, z ∈ c → ¬z ∈ d) s.comps
  geo : ∀ c ∈ s.comps, (∀ w ∈ c, ∀ y, Adj s.adj w y → y ∈ c) ∧
    (∀ w ∈ c, ∀ y ∈ c, ReachAdj s.adj w y)
  dirtySub : ∀ c ∈ s.dirtyComps, c ∈ s.comps
  dirtyND : s.dirtyComps.Nodup
  cleanEq : ∀ c ∈ s.comps, ¬c ∈ s.dirtyComps → ∀ z ∈ c,
    s.rslvAt z = LogicValue.resolve_all (c.map s.dfltAt)
  dtNil : s.dirtyTrans = []
  flag : s.dirty = false → s.dirtyComps = []

theorem foldl_append_mem :
    ∀ (D : List (List Nat)) (acc : List Nat) (z : Nat),
    z ∈ D.foldl (· ++ ·) acc ↔ z ∈ acc ∨ ∃ d ∈ D, z ∈ d := by
  intro D
  induction D with
  | nil => simp
  | cons d D ih =>
    intro acc z
    rw [List.foldl_cons, ih (acc ++ d) z]
    simp only [List.mem_append]
    constructor
    · rintro ((h | h) | ⟨e, he, hz⟩)
      · exact Or.inl h
      · exact Or.inr ⟨d, List.mem_cons_self _ _, h⟩
      · exact Or.inr ⟨e, List.mem_cons_of_mem _ he, hz⟩
    · rintro (h | ⟨e, he, hz⟩)
      · exact Or.inl (Or.inl h)
      · rcases List.mem_cons.mp he with rfl | he
        · exact Or.inl (Or.inr hz)
        · exact Or.inr ⟨e, he, hz⟩

theorem Adj_mem_right {adj : List (Nat × Nat)} {nodes : List Nat} {x y : Nat}
    (hsc : ∀ e ∈ adj, e.1 ∈ nodes ∧ e.2 ∈ nodes) (h : Adj adj x y) : y ∈ nodes := by
  rcases h with h | h
  · exact (hsc _ h).2
  · exact (hsc _ h).1

theorem reach_pred_closed {adj : List (Nat × Nat)} {P : Nat → Prop}
    (h : ∀ z y, P z → Adj adj z y → P y) {x z : Nat} (hx : P x)
    (hr : ReachAdj adj x z) : P z := by
  induction hr with
  | refl => exact hx
  | @tail p q _ step ih => exact h p q ih step

/-- Effect of `_update_node_components` on a phase-3 entry state: the loop
invariant is restored, and stability is detected exactly when no component
was dirty. -/
theorem updateNC_spec (s2 : Sim)
    (hnodesND : s2.nodes.Nodup)
    (hadjND : s2.adj.Nodup) (hadjCanon : ∀ e ∈ s2.adj, e.1 < e.2)
    (hadjScope : ∀ e ∈ s2.adj, e.1 ∈ s2.nodes ∧ e.2 ∈ s2.nodes)
    (htsc : ∀ t ∈ s2.trans, t.source ∈ s2.nodes ∧ t.drain ∈ s2.nodes)
    (hcompsScope : ∀ c ∈ s2.comps, ∀ z ∈ c, z ∈ s2.nodes)
    (hcompsND : ∀ c ∈ s2.comps, c.Nodup)
    (hcompsNE : ∀ c ∈ s2.comps, c ≠ [])
    (hcov : ∀ z ∈ s2.nodes, ∃ c ∈ s2.comps, z ∈ c)
    (hdisj : List.Pairwise (fun c d => ∀ z, z ∈ c → ¬z ∈ d) s2.comps)
    (hdS : ∀ c ∈ s2.dirtyComps, c ∈ s2.comps) (hdND : s2.dirtyComps.Nodup)
    (hcleanGeo : ∀ c ∈ s2.comps, ¬c ∈ s2.dirtyComps →
      (∀ w ∈ c, ∀ y, Adj s2.adj w y → y ∈ c) ∧
      (∀ w ∈ c, ∀ y ∈ c, ReachAdj s2.adj w y))
    (hcleanEq : ∀ c ∈ s2.comps, ¬c ∈ s2.dirtyComps → ∀ z ∈ c,
      s2.rslvAt z = LogicValue.resolve_all (c.map s2.dfltAt))
    (hdTnil : s2.dirtyTrans = [])
    (hdirty : s2.dirty = true) :
    LoopInv s2.updateNodeComponents := by
  have hScan := scanStarts_spec s2.adj (s2.dirtyComps.foldl (· ++ ·) []) []
    (fun v hv => absurd hv (List.not_mem_nil v)) List.nodup_nil
  obtain ⟨hcomps, hvisIff, _, _, hsts, _, hpw⟩ := hScan
  set dirtyNodes := s2.dirtyComps.foldl (· ++ ·) [] with hdn
  set newComps := (scanStarts s2.adj dirtyNodes []).1 with hnc
  have hdnMem : ∀ z, z ∈ dirtyNodes ↔ ∃ d ∈ s2.dirtyComps, z ∈ d := by
    intro z
    rw [hdn, foldl_append_mem]
    simp
  -- the dirty region is closed under adjacency
  have hregion : ∀ z y, (∃ d ∈ s2.dirtyComps, z ∈ d) → Adj s2.adj z y →
      ∃ d ∈ s2.dirtyComps, y ∈ d := by
    rintro z y ⟨d, hd, hzd⟩ hadj
    have hyn : y ∈ s2.nodes := Adj_mem_right hadjScope hadj
    obtain ⟨c, hc, hyc⟩ := hcov y hyn
    by_cases hcdirty : c ∈ s2.dirtyComps
    · exact ⟨c, hcdirty, hyc⟩
    · exfalso
      have hzc : z ∈ c := (hcleanGeo c hc hcdirty).1 y hyc z (Adj_symm hadj)
      have := partition_unique hdisj hc (hdS d hd) hzc hzd
      subst this
      exact hcdirty hd
  -- members of new components lie in the dirty region
  have hnewRegion : ∀ c ∈ newComps, ∀ z ∈ c, ∃ d ∈ s2.dirtyComps, z ∈ d := by
    intro c hc z hz
    obtain ⟨x, hx, _, _, hchar, _⟩ := hcomps c hc
    exact reach_pred_closed hregion ((hdnMem x).mp hx) ((hchar z).mp hz)
  -- membership in the result components
  have hs3comps : s2.updateNodeComponents.comps =
      s2.comps.filter (fun c => ¬c ∈ s2.dirtyComps) ++ newComps := rfl
  have hs3dirty : s2.updateNodeComponents.dirtyComps = newComps := rfl
  have hs3nodes : s2.updateNodeComponents.nodes = s2.nodes := rfl
  have hs3adj : s2.updateNodeComponents.adj = s2.adj := rfl
  have hkept : ∀ c, c ∈ s2.comps.filter (fun c => ¬c ∈ s2.dirtyComps) ↔
      c ∈ s2.comps ∧ ¬c ∈ s2.dirtyComps := by
    intro c
    rw [List.mem_filter]
    simp
  refine ⟨hnodesND, hadjND, hadjCanon, hadjScope, htsc, ?_, ?_, ?_, ?_, ?_, ?_,
    ?_, ?_, ?_, hdTnil, ?_⟩
  · -- compsScope
    rw [hs3comps]
    intro c hc z hz
    rcases List.mem_append.mp hc with hc | hc
    · exact hcompsScope c ((hkept c).mp hc).1 z hz
    · obtain ⟨d, hd, hzd⟩ := hnewRegion c hc z hz
      exact hcompsScope d (hdS d hd) z hzd
  · -- compsND
    rw [hs3comps]
    intro c hc
    rcases List.mem_append.mp hc with hc | hc
    · exact hcompsND c ((hkept c).mp hc).1
    · obtain ⟨x, _, _, _, _, hnd⟩ := hcomps c hc
      exact hnd
  · -- compsNE
    rw [hs3comps]
    intro c hc
    rcases List.mem_append.mp hc with hc | hc
    · exact hcompsNE c ((hkept c).mp hc).1
    · obtain ⟨x, _, _, hx, _, _⟩ := hcomps c hc
      exact List.ne_nil_of_mem hx
  · -- cover
    rw [hs3comps, hs3nodes]
    intro z hz
    obtain ⟨c, hc, hzc⟩ := hcov z hz
    by_cases hcd : c ∈ s2.dirtyComps
    · have hzdn : z ∈ dirtyNodes := (hdnMem z).mpr ⟨c, hcd, hzc⟩
      have := hsts z hzdn
      rcases (hvisIff z).mp this with h | ⟨c', hc', hzc'⟩
      · cases h
      · exact ⟨c', List.mem_append_right _ hc', hzc'⟩
    · exact ⟨c, List.mem_append_left _ ((hkept c).mpr ⟨hc, hcd⟩), hzc⟩
  · -- disjoint
    rw [hs3comps]
    rw [List.pairwise_append]
    refine ⟨hdisj.filter _, hpw, ?_⟩
    intro c hc c' hc' z hzc hzc'
    obtain ⟨hcm, hcclean⟩ := (hkept c).mp hc
    obtain ⟨d, hd, hzd⟩ := hnewRegion c' hc' z hzc'
    have := partition_unique hdisj hcm (hdS d hd) hzc hzd
    subst this
    exact hcclean hd
  · -- geo
    rw [hs3comps, hs3adj]
    intro c hc
    rcases List.mem_append.mp hc with hc | hc
    · obtain ⟨hcm, hcclean⟩ := (hkept c).mp hc
      exact hcleanGeo c hcm hcclean
    · obtain ⟨x, _, _, _, hchar, _⟩ := hcomps c hc
      constructor
      · intro w hw y hy
        exact (hchar y).mpr (((hchar w).mp hw).tail hy)
      · intro w hw y hy
        exact (ReachAdj_symm ((hchar w).mp hw)).trans ((hchar y).mp hy)
  · -- dirtySub
    rw [hs3comps, hs3dirty]
    exact fun c hc => List.mem_append_right _ hc
  · -- dirtyND
    rw [hs3dirty]
    refine List.Pairwise.imp_of_mem ?_ hpw
    intro a b ha _ hab
    obtain ⟨x, _, _, hx, _, _⟩ := hcomps a ha
    intro he
    exact hab x hx (he ▸ hx)
  · -- cleanEq
    rw [hs3comps, hs3dirty]
    intro c hc hcnew z hz
    rcases List.mem_append.mp hc with hc | hc
    · obtain ⟨hcm, hcclean⟩ := (hkept c).mp hc
      exact hcleanEq c hcm hcclean z hz
    · exact absurd hc hcnew
  · -- flag
    intro hfl
    rw [hs3dirty]
    by_cases hne : newComps = []
    · exact hne
    · exfalso
      have : s2.updateNodeComponents.dirty = s2.dirty := by
        show (if newComps = [] then false else s2.dirty) = s2.dirty
        rw [if_neg hne]
      rw [this, hdirty] at hfl
      cases hfl

-- ---------------------------------------------------------------------------
-- The loop invariant is established by `build_topology` and preserved by
-- every `tick` iteration
-- ---------------------------------------------------------------------------

theorem Sim.rslvAt_congr {s t : Sim} (h : s.rslv = t.rslv) : s.rslvAt = t.rslvAt := by
  funext n
  unfold Sim.rslvAt
  rw [h]

/-- One iteration of the `tick` loop preserves the loop invariant. -/
theorem loopBody_LoopInv {s : Sim} (hs : LoopInv s) (hd : s.dirty = true) :
    LoopInv s.loopBody := by
  obtain ⟨r1, r2, r3, r4, r5, r6, r7, r8, r9, r10⟩ := resolveNC_spec s
  set s1 := s.resolveNodeComponents with hs1
  -- all components of s1 satisfy the resolution equation
  have hAllEq : ∀ c ∈ s1.comps, ∀ z ∈ c,
      s1.rslvAt z = LogicValue.resolve_all (c.map s1.dfltAt) := by
    intro c hc z hz
    rw [r5] at hc
    have hdfa : s1.dfltAt = s.dfltAt := Sim.dfltAt_congr r2
    rw [hdfa]
    by_cases hcd : c ∈ s.dirtyComps
    · refine r10 c hcd z hz ?_ hs.dirtyND
      intro d' hd' hzd'
      exact partition_unique hs.disjoint (hs.dirtySub d' hd') hc hzd' hz
    · have hnz : ∀ d ∈ s.dirtyComps, ¬z ∈ d := by
        intro d hd hzd
        have := partition_unique hs.disjoint (hs.dirtySub d hd) hc hzd hz
        subst this
        exact hcd hd
      rw [r9 z hnz]
      exact hs.cleanEq c hc hcd z hz
  have hsub1 : ∀ x ∈ s1.dirtyTrans, x ∈ s1.trans := by
    intro x hx
    rw [r4]
    rcases r8 x hx with h | h
    · rw [hs.dtNil] at h
      cases h
    · exact h
  -- phase 2
  have hcov1 : ∀ z ∈ s1.nodes, ∃ c ∈ s1.comps, z ∈ c := by
    rw [r1, r5]
    exact hs.cover
  have hdisj1 : List.Pairwise (fun c d => ∀ z, z ∈ c → ¬z ∈ d) s1.comps := by
    rw [r5]
    exact hs.disjoint
  have htsc1 : ∀ t ∈ s1.trans, t.source ∈ s1.nodes ∧ t.drain ∈ s1.nodes := by
    rw [r4, r1]
    exact hs.transScope
  have hadjND1 : s1.adj.Nodup := by rw [r3]; exact hs.adjND
  have hadjCanon1 : ∀ e ∈ s1.adj, e.1 < e.2 := by rw [r3]; exact hs.adjCanon
  have hadjScope1 : ∀ e ∈ s1.adj, e.1 ∈ s1.nodes ∧ e.2 ∈ s1.nodes := by
    rw [r3, r1]
    exact hs.adjScope
  have hdS1 : ∀ c ∈ s1.dirtyComps, c ∈ s1.comps := by
    rw [r6]
    intro c hc
    cases hc
  have hdND1 : s1.dirtyComps.Nodup := by rw [r6]; exact List.nodup_nil
  have hclean1 : ∀ c ∈ s1.comps, ¬c ∈ s1.dirtyComps →
      (∀ w ∈ c, ∀ y, Adj s1.adj w y → y ∈ c) ∧
      (∀ w ∈ c, ∀ y ∈ c, ReachAdj s1.adj w y) := by
    rw [r5, r3]
    intro c hc _
    exact hs.geo c hc
  obtain ⟨t1, t2, t3, t4, t5, t6, t7, t8, t9, t10, t11, t12, t13⟩ :=
    updateTC_spec s1 hcov1 hdisj1 htsc1 hsub1 hadjND1 hadjCanon1 hadjScope1
      hdS1 hdND1 hclean1
  set s2 := s1.updateTransistorConnections with hs2
  -- phase 3
  have hres : LoopInv s2.updateNodeComponents := by
    refine updateNC_spec s2 ?_ t8 t9 ?_ ?_ ?_ ?_ ?_ ?_ ?_ ?_ t12 ?_ ?_ t7 ?_
    · rw [t1, r1]
      exact hs.nodesND
    · rw [t1]
      exact t10
    · rw [t4, t1]
      exact htsc1
    · rw [t5, r5, t1, r1]
      exact hs.compsScope
    · rw [t5, r5]
      exact hs.compsND
    · rw [t5, r5]
      exact hs.compsNE
    · rw [t5, t1]
      exact hcov1
    · rw [t5]
      exact hdisj1
    · rw [t5]
      exact t11
    · rw [t5]
      exact t13
    · intro c hc hcnew z hz
      rw [t5] at hc
      have hra : s2.rslvAt = s1.rslvAt := Sim.rslvAt_congr t3
      have hda : s2.dfltAt = s1.dfltAt := Sim.dfltAt_congr t2
      rw [hra, hda]
      exact hAllEq c hc z hz
    · rw [t6, r7]
      exact hd
  exact hres

/-- The loop invariant is preserved by any number of `tick` iterations. -/
theorem tickF_LoopInv : ∀ (fuel : Nat) (s : Sim), LoopInv s →
    LoopInv (Sim.tickF fuel s) := by
  intro fuel
  induction fuel with
  | zero => exact fun s hs => hs
  | succ fuel ih =>
    intro s hs
    show LoopInv (if s.dirty then Sim.tickF fuel s.loopBody else s)
    by_cases hd : s.dirty
    · rw [if_pos hd]
      exact ih s.loopBody (loopBody_LoopInv hs hd)
    · rw [if_neg hd]
      exact hs

/-- Well-formedness of a pre-`build_topology` circuit, as guaranteed by
construction through the registration interface: distinct registered node
ids, duplicate-free canonical wires between registered nodes, and transistor
channels on registered nodes. -/
structure SimWF (s : Sim) : Prop where
  nodesND : s.nodes.Nodup
  adjND : s.adj.Nodup
  adjCanon : ∀ e ∈ s.adj, e.1 < e.2
  adjScope : ∀ e ∈ s.adj, e.1 ∈ s.nodes ∧ e.2 ∈ s.nodes
  transScope : ∀ t ∈ s.trans, t.source ∈ s.nodes ∧ t.drain ∈ s.nodes

/-- `build_topology` establishes the loop invariant. -/
theorem buildTopology_LoopInv {s : Sim} (hwf : SimWF s) :
    LoopInv s.buildTopology := by
  have hScan := scanStarts_spec s.adj s.nodes []
    (fun v hv => absurd hv (List.not_mem_nil v)) List.nodup_nil
  obtain ⟨hcomps, hvisIff, _, _, hsts, _, hpw⟩ := hScan
  have hcompsEq : s.buildTopology.comps = (scanStarts s.adj s.nodes []).1 := rfl
  have hdirtyEq : s.buildTopology.dirtyComps = (scanStarts s.adj s.nodes []).1 := rfl
  have hchar : ∀ c ∈ (scanStarts s.adj s.nodes []).1, ∀ z ∈ c, z ∈ s.nodes := by
    intro c hc z hz
    obtain ⟨x, hx, _, _, hch, _⟩ := hcomps c hc
    exact reach_scope hwf.adjScope hx ((hch z).mp hz)
  refine ⟨hwf.nodesND, hwf.adjND, hwf.adjCanon, hwf.adjScope, hwf.transScope,
    ?_, ?_, ?_, ?_, ?_, ?_, ?_, ?_, ?_, rfl, ?_⟩
  · rw [hcompsEq]
    exact hchar
  · rw [hcompsEq]
    intro c hc
    obtain ⟨x, _, _, _, _, hnd⟩ := hcomps c hc
    exact hnd
  · rw [hcompsEq]
    intro c hc
    obtain ⟨x, _, _, hx, _, _⟩ := hcomps c hc
    exact List.ne_nil_of_mem hx
  · rw [hcompsEq]
    intro z hz
    have := hsts z hz
    rcases (hvisIff z).mp this with h | h
    · cases h
    · exact h
  · rw [hcompsEq]
    exact hpw
  · rw [hcompsEq]
    intro c hc
    obtain ⟨x, _, _, _, hch, _⟩ := hcomps c hc
    constructor
    · intro w hw y hy
      exact (hch y).mpr (((hch w).mp hw).tail hy)
    · intro w hw y hy
      exact (ReachAdj_symm ((hch w).mp hw)).trans ((hch y).mp hy)
  · rw [hcompsEq, hdirtyEq]
    exact fun c hc => hc
  · rw [hdirtyEq]
    refine List.Pairwise.imp_of_mem ?_ hpw
    intro a b ha _ hab
    obtain ⟨x, _, _, hx, _, _⟩ := hcomps a ha
    intro he
    exact hab x hx (he ▸ hx)
  · rw [hdirtyEq]
    intro c hc hcd _ _
    exact absurd (hcompsEq ▸ hc) hcd
  · intro h
    cases h

-- ---------------------------------------------------------------------------
-- Claim C1
-- ---------------------------------------------------------------------------

/-- C1 (amended): whenever `tick()` returns after `build_topology()` — i.e.
the fixed point is reached within the fuel — then for every registered node
`x`, the connected component of `x` in the graph of the nodes' current
connection sets (the user wires as subsequently rewritten by the transistor
connect/disconnect updates) is exactly one of the simulator's components, and
every node of it carries the same resolved value, namely `resolve_all` of the
members' default values. -/
theorem claim_C1 (s0 : Sim) (fuel : Nat) (hwf : SimWF s0)
    (hdone : ((s0.buildTopology).tickF fuel).dirty = false) :
    ∀ x ∈ ((s0.buildTopology).tickF fuel).nodes,
    ∃ c ∈ ((s0.buildTopology).tickF fuel).comps, x ∈ c ∧
      (∀ z, z ∈ c ↔ ReachAdj ((s0.buildTopology).tickF fuel).adj x z) ∧
      (∀ z ∈ c, ((s0.buildTopology).tickF fuel).rslvAt z =
        LogicValue.resolve_all (c.map ((s0.buildTopology).tickF fuel).dfltAt)) := by
  have hinv : LoopInv ((s0.buildTopology).tickF fuel) :=
    tickF_LoopInv fuel s0.buildTopology (buildTopology_LoopInv hwf)
  set sF := (s0.buildTopology).tickF fuel with hsF
  have hnodirty : sF.dirtyComps = [] := hinv.flag hdone
  intro x hx
  obtain ⟨c, hc, hxc⟩ := hinv.cover x hx
  obtain ⟨hclosed, hconn⟩ := hinv.geo c hc
  refine ⟨c, hc, hxc, ?_, ?_⟩
  · intro z
    constructor
    · exact fun hz => hconn x hxc z hz
    · intro hr
      exact reach_pred_closed (fun p q hp hadj => hclosed p hp q hadj) hxc hr
  · intro z hz
    refine hinv.cleanEq c hc ?_ z hz
    rw [hnodirty]
    exact List.not_mem_nil c

/-- The direct-drive circuit: an `Input` (terminal node 0) wired to a `Probe`
(terminal node 1), freshly registered. -/
def ddInit : Sim :=
  { nodes := [0, 1], dflt := [], rslv := [], adj := [],
    trans := [], comps := [], dirtyComps := [], dirtyTrans := [], dirty := true }

/-- The direct-drive circuit after `sim.connect(inp.terminal, probe.terminal)`. -/
def ddBase : Sim :=
  ddInit.connect 0 1

/-- Witness for C1 on the direct-drive circuit with the input driven to ONE. -/
theorem claim_C1_witness :
    ∃ c ∈ ((((ddBase.inputSetValue 0 .ONE)).buildTopology).tickF 2).comps,
      (0 : Nat) ∈ c ∧
      (∀ z, z ∈ c ↔
        ReachAdj ((((ddBase.inputSetValue 0 .ONE)).buildTopology).tickF 2).adj 0 z) ∧
      (∀ z ∈ c, ((((ddBase.inputSetValue 0 .ONE)).buildTopology).tickF 2).rslvAt z =
        LogicValue.resolve_all
          (c.map ((((ddBase.inputSetValue 0 .ONE)).buildTopology).tickF 2).dfltAt)) :=
  claim_C1 (ddBase.inputSetValue 0 .ONE) 2
    ⟨by decide, by decide, by decide, by decide, by decide⟩
    (by decide) 0 (by decide)

/-- The parallel-wire circuit refuting C1 as stated: VDD terminal 0, Input
terminal 1, and an NMOS (gate 2, source 3, drain 4) whose channel nodes are
also joined by a static wire; wires 0–3, 3–4, 1–2. -/
def parBase : Sim :=
  (({ nodes := [0, 1, 2, 3, 4],
      dflt := [(0, .ONE), (1, .ONE)], rslv := [], adj := [],
      trans := [⟨.NMOS, 2, 3, 4⟩], comps := [], dirtyComps := [],
      dirtyTrans := [], dirty := true : Sim }).connect 0 3).connect 3 4
    |>.connect 1 2

/-- The parallel-wire circuit after driving the input ONE, ticking, then
driving it ZERO and ticking again (with `build_topology` before each tick,
as the repository's own tests do). -/
def parFinal : Sim :=
  ((((parBase.buildTopology).tickF 30).inputSetValue 1 .ZERO).buildTopology).tickF 30

/-- Counterexample to C1 as stated: in `parFinal` the tick has returned and
no transistor conducts, so the static∪dynamic graph is the static wire graph
`parBase.adj`, in which node 4 lies in the component of the VDD terminal 0;
yet node 0 resolves to ONE while node 4 resolves to Z — the non-conducting
transistor update deleted the user's static wire 3–4 from the node connection
sets. -/
theorem claim_C1_counterexample :
    ReachAdj parBase.adj 0 4 ∧
    parFinal.dirty = false ∧
    (∀ t ∈ parFinal.trans, t.isConducting parFinal.rslvAt = false) ∧
    parFinal.rslvAt 0 = .ONE ∧
    parFinal.rslvAt 4 = .Z ∧
    ¬parFinal.rslvAt 4 = parFinal.rslvAt 0 := by
  refine ⟨?_, by decide, by decide, by decide, by decide, by decide⟩
  have h1 : Adj parBase.adj 0 3 := Or.inl (by decide)
  have h2 : Adj parBase.adj 3 4 := Or.inl (by decide)
  exact (ReachAdj.single h1).tail h2

-- ---------------------------------------------------------------------------
-- Claim C2
-- ---------------------------------------------------------------------------

theorem tickF_not_dirty {s : Sim} (h : s.dirty = false) :
    ∀ b : Nat, Sim.tickF b s = s := by
  intro b
  cases b with
  | zero => rfl
  | succ b =>
    show (if s.dirty then Sim.tickF b s.loopBody else s) = s
    rw [h]
    exact if_neg Bool.false_ne_true

theorem tickF_add : ∀ (a b : Nat) (s : Sim),
    Sim.tickF (a + b) s = Sim.tickF b (Sim.tickF a s) := by
  intro a
  induction a with
  | zero =>
    intro b s
    rw [Nat.zero_add]
    rfl
  | succ a ih =>
    intro b s
    by_cases hd : s.dirty
    · have h1 : Sim.tickF (a + 1 + b) s = Sim.tickF (a + b) s.loopBody := by
        rw [show a + 1 + b = (a + b) + 1 by omega]
        show (if s.dirty then Sim.tickF (a + b) s.loopBody else s) = _
        rw [if_pos hd]
      have h2 : Sim.tickF (a + 1) s = Sim.tickF a s.loopBody := by
        show (if s.dirty then Sim.tickF a s.loopBody else s) = _
        rw [if_pos hd]
      rw [h1, h2, ih b s.loopBody]
    · have hfd : s.dirty = false := by
        revert hd
        cases s.dirty <;> simp
      rw [tickF_not_dirty hfd (a + 1 + b), tickF_not_dirty hfd (a + 1),
        tickF_not_dirty hfd b]

/-- A feedback circuit that oscillates: GND terminal 0, Input terminal 1
driven to ONE, and an NMOS (gate 2, source 3, drain 4) whose drain is wired
back to its own gate; wires 0–3, 1–2, 4–2.  While the gate reads ONE the
channel closes, shorting the gate net into the GND net and resolving the gate
to X; the open channel then splits the nets again and the gate returns to
ONE, for ever. -/
def oscBase : Sim :=
  ((({ nodes := [0, 1, 2, 3, 4],
       dflt := [(0, .ZERO), (1, .ONE)], rslv := [], adj := [],
       trans := [⟨.NMOS, 2, 3, 4⟩], comps := [], dirtyComps := [],
       dirtyTrans := [], dirty := true : Sim }).connect 0 3).connect 1 2).connect 4 2

theorem oscBase_cycle_one :
    ((oscBase.buildTopology).tickF 1).loopBody = (oscBase.buildTopology).tickF 2 := by
  decide

theorem oscBase_cycle_two :
    ((oscBase.buildTopology).tickF 2).loopBody = (oscBase.buildTopology).tickF 1 := by
  decide

theorem oscBase_cycle_dirty :
    ((oscBase.buildTopology).tickF 1).dirty = true ∧
    ((oscBase.buildTopology).tickF 2).dirty = true := by
  decide

theorem osc_never_settles : ∀ (g : Nat) (s : Sim),
    s = (oscBase.buildTopology).tickF 1 ∨ s = (oscBase.buildTopology).tickF 2 →
    (Sim.tickF g s).dirty = true := by
  intro g
  induction g with
  | zero =>
    rintro s (rfl | rfl)
    · exact oscBase_cycle_dirty.1
    · exact oscBase_cycle_dirty.2
  | succ g ih =>
    rintro s (rfl | rfl)
    · show (if ((oscBase.buildTopology).tickF 1).dirty then
          Sim.tickF g ((oscBase.buildTopology).tickF 1).loopBody else _).dirty = true
      rw [oscBase_cycle_dirty.1, if_pos rfl, oscBase_cycle_one]
      exact ih _ (Or.inr rfl)
    · show (if ((oscBase.buildTopology).tickF 2).dirty then
          Sim.tickF g ((oscBase.buildTopology).tickF 2).loopBody else _).dirty = true
      rw [oscBase_cycle_dirty.2, if_pos rfl, oscBase_cycle_two]
      exact ih _ (Or.inl rfl)

/-- C2 fails on the code (the spec's iteration cap is the intent the code
never implements): on the oscillating feedback circuit `oscBase`, `tick()`
never reaches a fixed point — after any number of loop iterations the
simulator is still dirty, so the Python `while self._dirty:` loop runs for
ever.  No `MAX_ITER`, no `TickOutcome`, and no forcing of oscillating nodes
to X exist anywhere in the code. -/
theorem claim_C2 : ∀ fuel : Nat, ((oscBase.buildTopology).tickF fuel).dirty = true := by
  intro fuel
  rcases fuel with _ | f
  · decide
  · have h1 : Sim.tickF (f + 1) (oscBase.buildTopology)
        = Sim.tickF f (Sim.tickF 1 (oscBase.buildTopology)) := by
      rw [show f + 1 = 1 + f by omega]
      exact tickF_add 1 f _
    rw [h1]
    exact osc_never_settles f _ (Or.inl rfl)

-- ---------------------------------------------------------------------------
-- Claim C7
-- ---------------------------------------------------------------------------

/-- One user round on the direct-drive circuit as the repository's own test
performs it: `inp.set_value(v); sim.build_topology(); sim.tick()` (two loop
iterations always reach the fixed point on this two-node circuit). -/
def ddStep (s : Sim) (v : LogicValue) : Sim :=
  ((s.inputSetValue 0 v).buildTopology).tickF 2

/-- A whole user session: rounds for each listed value in order. -/
def ddRun (s : Sim) (vs : List LogicValue) : Sim :=
  vs.foldl ddStep s

set_option maxHeartbeats 2000000 in
theorem ddStep_collapse : ∀ w v : LogicValue,
    ddStep (ddStep ddBase w) v = ddStep ddBase v := by
  decide

theorem ddStep_sample : ∀ v : LogicValue,
    (ddStep ddBase v).probeSample 1 = v ∧ (ddStep ddBase v).dirty = false := by
  decide

theorem ddRun_cons (s : Sim) (v : LogicValue) (vs : List LogicValue) :
    ddRun s (v :: vs) = ddRun (ddStep s v) vs := rfl

theorem ddRun_from_step : ∀ (vs : List LogicValue) (w : LogicValue),
    ∃ u : LogicValue, ddRun (ddStep ddBase w) vs = ddStep ddBase u := by
  intro vs
  induction vs with
  | nil => exact fun w => ⟨w, rfl⟩
  | cons v vs ih =>
    intro w
    rw [ddRun_cons, ddStep_collapse w v]
    exact ih v

/-- C7 (amended): on the Input→Probe circuit, for every session of rounds
`set_value(v); build_topology(); tick()`, each round ends with `tick`
settled and the probe sampling exactly the value just set — rebuilding the
topology before the tick is what the code requires and what the repository's
own test does. -/
theorem claim_C7 : ∀ (vs : List LogicValue) (v : LogicValue),
    (ddStep (ddRun ddBase vs) v).probeSample 1 = v ∧
    (ddStep (ddRun ddBase vs) v).dirty = false := by
  intro vs v
  cases vs with
  | nil => exact ddStep_sample v
  | cons w vs =>
    have h1 : ddRun ddBase (w :: vs) = ddRun (ddStep ddBase w) vs := rfl
    obtain ⟨u, hu⟩ := ddRun_from_step vs w
    rw [h1, hu, ddStep_collapse u v]
    exact ddStep_sample v

/-- Counterexample to C7 as stated: after `set_value(ONE); build_topology();
tick()` the probe reads ONE, but a bare `set_value(ZERO); tick()` — without
rebuilding the topology — leaves the simulator clean, the tick's `while
self._dirty:` loop runs zero iterations, and the probe still reads the stale
ONE instead of ZERO. -/
theorem claim_C7_counterexample :
    ((ddBase.inputSetValue 0 .ONE).buildTopology.tickF 2).probeSample 1 = .ONE ∧
    (((ddBase.inputSetValue 0 .ONE).buildTopology.tickF 2).inputSetValue 0
        .ZERO).dirty = false ∧
    ((((ddBase.inputSetValue 0 .ONE).buildTopology.tickF 2).inputSetValue 0
        .ZERO).tickF 2).probeSample 1 = .ONE ∧
    ¬((((ddBase.inputSetValue 0 .ONE).buildTopology.tickF 2).inputSetValue 0
        .ZERO).tickF 2).probeSample 1 = .ZERO := by
  decide

end SIRC
